import Mathlib

/-!
Verification of the `ln-types` value types (`Amount`, `P2PAddress`) against
their natural-language specification.  The Rust source in `src/amount.rs` and
`src/p2p_address.rs` is shallowly embedded: `u64` values become `Nat` with
explicit `% 2 ^ 64` where overflow matters, fallible operations return
`Except`/`Option` (`none`/`error` models a panic or a typed error as in the
source), and strings become `List Char`.
-/

set_option maxRecDepth 10000

namespace LnTypes

/-! ## Machine-integer model -/

/-- Modulus of the Rust `u64` type. -/
def u64Mod : Nat := 2 ^ 64

/-! ## Characters and digits

Helpers shared by the embeddings of Rust's integer `FromStr`, `Display`,
and the IP-address parser in `core::net`. -/

/-- The character Rust's formatter emits for a digit value (`0-9a-f`). -/
def digitChar (v : Nat) : Char :=
  if v < 10 then Char.ofNat (48 + v) else Char.ofNat (87 + v)

/-- ASCII decimal digit test (`u8::is_ascii_digit`). -/
def isAsciiDigit (c : Char) : Bool := 48 ≤ c.toNat && c.toNat ≤ 57

/-- Value of an ASCII decimal digit. -/
def decDigitVal (c : Char) : Nat := c.toNat - 48

/-- Fuel-driven digit extraction (structural recursion, so that concrete
renderings evaluate by kernel reduction). -/
def natBaseCharsGo (b : Nat) : Nat → Nat → List Char
  | 0, n => [digitChar n]
  | fuel + 1, n =>
    if n < b ∨ b ≤ 1 then [digitChar n]
    else natBaseCharsGo b fuel (n / b) ++ [digitChar (n % b)]

/-- Decimal/hex digits of `n` in base `b`, most significant first: the digit
sequence produced by Rust's `Display`/`LowerHex` formatting of an unsigned
integer.  `n` itself is always enough fuel. -/
def natBaseChars (b n : Nat) : List Char := natBaseCharsGo b n n

theorem natBaseCharsGo_fuel (b : Nat) :
    ∀ n f1 f2, n ≤ f1 → n ≤ f2 → natBaseCharsGo b f1 n = natBaseCharsGo b f2 n := by
  intro n
  induction n using Nat.strong_induction_on with
  | _ n ih =>
    intro f1 f2 h1 h2
    by_cases h : n < b ∨ b ≤ 1
    · cases f1 with
      | zero => cases f2 with
        | zero => rfl
        | succ f2 => rw [natBaseCharsGo, natBaseCharsGo, if_pos h]
      | succ f1 => cases f2 with
        | zero => rw [natBaseCharsGo, natBaseCharsGo, if_pos h]
        | succ f2 => rw [natBaseCharsGo, natBaseCharsGo, if_pos h, if_pos h]
    · push_neg at h
      have hn2 : 2 ≤ n := by omega
      obtain ⟨g1, rfl⟩ : ∃ g1, f1 = g1 + 1 := ⟨f1 - 1, by omega⟩
      obtain ⟨g2, rfl⟩ : ∃ g2, f2 = g2 + 1 := ⟨f2 - 1, by omega⟩
      rw [natBaseCharsGo, natBaseCharsGo, if_neg (by push_neg; exact h),
        if_neg (by push_neg; exact h)]
      have hdiv : n / b < n := Nat.div_lt_self (by omega) (by omega)
      rw [ih (n / b) hdiv g1 g2 (by omega) (by omega)]

theorem natBaseChars_base (b n : Nat) (h : n < b ∨ b ≤ 1) :
    natBaseChars b n = [digitChar n] := by
  rw [natBaseChars]
  cases n with
  | zero => rfl
  | succ m => rw [natBaseCharsGo, if_pos h]

theorem natBaseChars_step (b n : Nat) (h : ¬(n < b ∨ b ≤ 1)) :
    natBaseChars b n = natBaseChars b (n / b) ++ [digitChar (n % b)] := by
  push_neg at h
  obtain ⟨m, rfl⟩ : ∃ m, n = m + 1 := ⟨n - 1, by omega⟩
  rw [natBaseChars, natBaseCharsGo, if_neg (by push_neg; exact h)]
  rw [natBaseChars]
  have hdiv : (m + 1) / b < m + 1 := Nat.div_lt_self (by omega) (by omega)
  rw [natBaseCharsGo_fuel b ((m + 1) / b) m ((m + 1) / b) (by omega) (by omega)]

theorem natBaseChars_ne_nil (b n : Nat) : natBaseChars b n ≠ [] := by
  by_cases h : n < b ∨ b ≤ 1
  · rw [natBaseChars_base b n h]
    simp
  · rw [natBaseChars_step b n h]
    simp

/-- Every character of the base-`b` digit string is `digitChar v` for some
digit value `v < b` (when `b ≥ 2` and the leading digit is in range). -/
theorem mem_natBaseChars (b n : Nat) (hb : 2 ≤ b) :
    ∀ c ∈ natBaseChars b n, ∃ v, v < b ∧ c = digitChar v := by
  induction n using Nat.strong_induction_on with
  | _ n ih =>
    by_cases h : n < b ∨ b ≤ 1
    · rw [natBaseChars_base b n h]
      intro c hc
      simp only [List.mem_singleton] at hc
      exact ⟨n, by omega, hc⟩
    · rw [natBaseChars_step b n h]
      intro c hc
      rcases List.mem_append.mp hc with hc | hc
      · exact ih (n / b) (Nat.div_lt_self (by omega) (by omega)) c hc
      · simp only [List.mem_singleton] at hc
        exact ⟨n % b, Nat.mod_lt _ (by omega), hc⟩

/-- Value of a decimal digit string, as accumulated by Rust's
`from_str_radix` loop. -/
def parseDecValue (ds : List Char) : Nat :=
  ds.foldl (fun acc c => acc * 10 + decDigitVal c) 0

theorem decDigitVal_digitChar (v : Nat) (hv : v < 10) :
    decDigitVal (digitChar v) = v := by
  interval_cases v <;> decide

theorem isAsciiDigit_digitChar (v : Nat) (hv : v < 10) :
    isAsciiDigit (digitChar v) = true := by
  interval_cases v <;> decide

/-- Auxiliary: the digit-fold starting from accumulator `a`. -/
theorem foldl_natBaseChars (n : Nat) :
    ∀ a : Nat, (natBaseChars 10 n).foldl (fun acc c => acc * 10 + decDigitVal c) a =
      a * 10 ^ (natBaseChars 10 n).length + n := by
  induction n using Nat.strong_induction_on with
  | _ n ih =>
    intro a
    by_cases h : n < 10 ∨ 10 ≤ 1
    · rw [natBaseChars_base 10 n h]
      simp only [List.foldl_cons, List.foldl_nil, List.length_singleton, pow_one]
      rw [decDigitVal_digitChar n (by omega)]
    · rw [natBaseChars_step 10 n h]
      push_neg at h
      rw [List.foldl_append, List.length_append]
      rw [ih (n / 10) (Nat.div_lt_self (by omega) (by omega)) a]
      simp only [List.foldl_cons, List.foldl_nil, List.length_singleton]
      rw [decDigitVal_digitChar (n % 10) (Nat.mod_lt _ (by omega))]
      rw [pow_add, pow_one, ← Nat.mul_assoc, Nat.add_mul]
      have : 10 * (n / 10) + n % 10 = n := Nat.div_add_mod n 10
      omega

/-- Re-parsing the decimal rendering of `n` recovers `n`. -/
theorem parseDecValue_natBaseChars (n : Nat) :
    parseDecValue (natBaseChars 10 n) = n := by
  have := foldl_natBaseChars n 0
  simpa [parseDecValue] using this

theorem natBaseChars_all_digits (n : Nat) :
    (natBaseChars 10 n).all isAsciiDigit = true := by
  rw [List.all_eq_true]
  intro c hc
  obtain ⟨v, hv, rfl⟩ := mem_natBaseChars 10 n (by omega) c hc
  exact isAsciiDigit_digitChar v hv

/-! ## Rust's unsigned-integer `FromStr`

`u16::from_str` / `u64::from_str`: an optional leading `+`, then a nonempty
run of decimal digits covering the whole input, with an overflow check
against the type's bound `B`.  `none` collapses the `ParseIntError` kinds
(empty, invalid digit, positive overflow). -/
def rustParseUInt (B : Nat) (s : List Char) : Option Nat :=
  let digits := match s with
    | '+' :: rest => rest
    | _ => s
  if digits = [] then none
  else if digits.all isAsciiDigit then
    if parseDecValue digits < B then some (parseDecValue digits) else none
  else none

/-- Parsing the canonical decimal rendering of `n < B` yields `n`. -/
theorem rustParseUInt_natBaseChars (B n : Nat) (h : n < B) :
    rustParseUInt B (natBaseChars 10 n) = some n := by
  have hne := natBaseChars_ne_nil 10 n
  have hall := natBaseChars_all_digits n
  have hval := parseDecValue_natBaseChars n
  unfold rustParseUInt
  have hplus : (match natBaseChars 10 n with
      | '+' :: rest => rest
      | _ => natBaseChars 10 n) = natBaseChars 10 n := by
    match hm : natBaseChars 10 n with
    | [] => rfl
    | c :: rest =>
      have hc : c ∈ natBaseChars 10 n := by rw [hm]; exact List.mem_cons_self _ _
      obtain ⟨v, hv, rfl⟩ := mem_natBaseChars 10 n (by omega) c hc
      have : digitChar v ≠ '+' := by interval_cases v <;> decide
      split
      · rename_i heq
        exact absurd (List.cons_eq_cons.mp heq).1 this
      · rfl
  rw [hplus, if_neg hne, hall]
  simp only [if_true]
  rw [hval, if_pos h]

/-! ## Amount (embedding of `src/amount.rs`) -/

/-- `const SATS_IN_BTC: u64 = 100_000_000` -/
def SATS_IN_BTC : Nat := 100000000

/-- `const MAX_MONEY_SAT: u64 = 21_000_000 * SATS_IN_BTC` -/
def MAX_MONEY_SAT : Nat := 21000000 * SATS_IN_BTC

/-- `const MAX_MONEY_MSAT: u64 = MAX_MONEY_SAT * 1000` -/
def MAX_MONEY_MSAT : Nat := MAX_MONEY_SAT * 1000

/-- `pub struct Amount(u64)` — the raw field is a number of millisatoshis. -/
structure Amount where
  msat : Nat
  deriving DecidableEq, Repr

/-- `OverflowError { amount: u64, denomination: &'static str }` -/
structure OverflowError where
  amount : Nat
  denomination : String
  deriving DecidableEq, Repr

/-- `FractionError { amount: u64 }` -/
structure FractionError where
  amount : Nat
  deriving DecidableEq, Repr

namespace Amount

/-- `Amount::from_msat`: overflow-checked construction from raw millisatoshis. -/
def from_msat (msat : Nat) : Except OverflowError Amount :=
  if msat > MAX_MONEY_MSAT then
    .error ⟨msat, "millisatoshis"⟩
  else
    .ok ⟨msat⟩

/-- `Amount::from_sat`: the bound is checked at satoshi scale, then the value
is multiplied by 1000 (a `u64` multiplication, hence the explicit wrap). -/
def from_sat (sat : Nat) : Except OverflowError Amount :=
  if sat > MAX_MONEY_SAT then
    .error ⟨sat, "satoshis"⟩
  else
    .ok ⟨(sat * 1000) % u64Mod⟩

/-- `Amount::to_msat` -/
def to_msat (a : Amount) : Nat := a.msat

/-- `Amount::to_sat`: exact division by 1000, error when not a multiple. -/
def to_sat (a : Amount) : Except FractionError Nat :=
  if a.msat % 1000 = 0 then .ok (a.msat / 1000) else .error ⟨a.msat⟩

/-- `Amount::to_sat_floor`: `self.0 / 1000`. -/
def to_sat_floor (a : Amount) : Nat := a.msat / 1000

/-- `Amount::to_sat_ceiling`: `(self.0 + 999) / 1000` on `u64` (wrapping add). -/
def to_sat_ceiling (a : Amount) : Nat := ((a.msat + 999) % u64Mod) / 1000

/-- `Amount::to_sat_round`: `(self.0 + 500) / 1000` on `u64` (wrapping add). -/
def to_sat_round (a : Amount) : Nat := ((a.msat + 500) % u64Mod) / 1000

/-- `impl Add for Amount`: `u64` addition followed by the bound assertion;
`none` models the panic. -/
def add (a b : Amount) : Option Amount :=
  let sum := (a.msat + b.msat) % u64Mod
  if sum ≤ MAX_MONEY_MSAT then some ⟨sum⟩ else none

/-- `impl Sub for Amount`: `checked_sub` with `expect`; `none` models the panic. -/
def sub (a b : Amount) : Option Amount :=
  if b.msat ≤ a.msat then some ⟨a.msat - b.msat⟩ else none

/-- `impl Mul<u64> for Amount`: `checked_mul` then the supply-cap guard;
`none` models the panic. -/
def mul (a : Amount) (rhs : Nat) : Option Amount :=
  match (if a.msat * rhs < u64Mod then some (a.msat * rhs) else none) with
  | some amount => if amount ≤ MAX_MONEY_MSAT then some ⟨amount⟩ else none
  | none => none

/-- `impl Div<u64> for Amount`: plain `u64` division; `none` models the
division-by-zero panic. -/
def div (a : Amount) (rhs : Nat) : Option Amount :=
  if rhs = 0 then none else some ⟨a.msat / rhs⟩

/-- `impl Rem<u64> for Amount`: plain `u64` remainder; `none` models the
division-by-zero panic. -/
def rem (a : Amount) (rhs : Nat) : Option Amount :=
  if rhs = 0 then none else some ⟨a.msat % rhs⟩

/-- `enum ParseErrorInner { ParseInt(..), Overflow(..) }` from `amount.rs`
(the `ParseIntError` payload is collapsed). -/
inductive ParseInner where
  | parseInt
  | overflow (e : OverflowError)
  deriving DecidableEq, Repr

/-- `" msat"` as characters. -/
def msatSuffix : List Char := [' ', 'm', 's', 'a', 't']

/-- `Amount::parse_raw`: strip an optional `" msat"` suffix, parse the rest
as `u64`, then bound-check via `from_msat`. -/
def parse_raw (s : List Char) : Except ParseInner Amount :=
  match rustParseUInt u64Mod
      (if msatSuffix.isSuffixOf s then s.take (s.length - 5) else s) with
  | none => .error .parseInt
  | some v =>
    match from_msat v with
    | .error e => .error (.overflow e)
    | .ok a => .ok a

/-- `impl Display for Amount`: `write!(f, "{} msat", self.0)`. -/
def display (a : Amount) : List Char := natBaseChars 10 a.msat ++ msatSuffix

end Amount

/-! ### Amount claims -/

/-- **C3.** For every `u64` value `v`, `Amount::from_msat(v)` succeeds iff
`v ≤ 21_000_000 × 10^11`; on success `to_msat()` returns exactly `v`, and
above the bound it fails with an `OverflowError` naming "millisatoshis". -/
theorem amount_from_msat_correct (v : Nat) (_hv : v < u64Mod) :
    (v ≤ MAX_MONEY_MSAT →
      Amount.from_msat v = .ok ⟨v⟩ ∧ Amount.to_msat ⟨v⟩ = v) ∧
    (MAX_MONEY_MSAT < v →
      Amount.from_msat v = .error ⟨v, "millisatoshis"⟩) := by
  constructor
  · intro h
    exact ⟨by rw [Amount.from_msat, if_neg (Nat.not_lt.mpr h)], rfl⟩
  · intro h
    rw [Amount.from_msat, if_pos h]

theorem amount_from_msat_correct_witness :
    Amount.from_msat 1000 = .ok ⟨1000⟩ ∧ Amount.to_msat ⟨1000⟩ = 1000 :=
  (amount_from_msat_correct 1000 (by decide)).1 (by decide)

/-- **C4.** For every `u64` value `s`, `Amount::from_sat(s)` succeeds iff
`s ≤ 21_000_000 × 10^8`; the bound is checked at satoshi scale so the
`u64` multiplication by 1000 never wraps and the result never exceeds the
cap, and on success the stored value is exactly `s × 1000`; above the bound
it fails with an `OverflowError` naming "satoshis". -/
theorem amount_from_sat_correct (s : Nat) (_hs : s < u64Mod) :
    (s ≤ MAX_MONEY_SAT →
      (s * 1000) % u64Mod = s * 1000 ∧
      Amount.from_sat s = .ok ⟨s * 1000⟩ ∧
      Amount.to_msat ⟨s * 1000⟩ = s * 1000 ∧
      s * 1000 ≤ MAX_MONEY_MSAT) ∧
    (MAX_MONEY_SAT < s →
      Amount.from_sat s = .error ⟨s, "satoshis"⟩) := by
  have hcap : MAX_MONEY_MSAT < u64Mod := by decide
  constructor
  · intro h
    have hmul : s * 1000 ≤ MAX_MONEY_MSAT := by
      rw [MAX_MONEY_MSAT]
      exact Nat.mul_le_mul_right 1000 h
    have hmod : (s * 1000) % u64Mod = s * 1000 := Nat.mod_eq_of_lt (by omega)
    refine ⟨hmod, ?_, rfl, hmul⟩
    rw [Amount.from_sat, if_neg (Nat.not_lt.mpr h), hmod]
  · intro h
    rw [Amount.from_sat, if_pos h]

theorem amount_from_sat_correct_witness :
    Amount.from_sat 1 = .ok ⟨1000⟩ ∧ Amount.to_msat ⟨1000⟩ = 1000 :=
  let h := (amount_from_sat_correct 1 (by decide)).1 (by decide)
  ⟨h.2.1, h.2.2.1⟩

/-- **C5.** For amounts `a`, `b` within the bound whose exact sum stays within
the bound, `a + b` succeeds with exactly the sum of the raw values (the `u64`
addition cannot wrap); when the exact sum exceeds the bound the addition
panics (modelled as `none`). -/
theorem amount_add_correct (a b : Amount)
    (ha : a.msat ≤ MAX_MONEY_MSAT) (hb : b.msat ≤ MAX_MONEY_MSAT) :
    (a.to_msat + b.to_msat ≤ MAX_MONEY_MSAT →
      Amount.add a b = some ⟨a.to_msat + b.to_msat⟩ ∧
      (Amount.add a b).map Amount.to_msat = some (a.to_msat + b.to_msat)) ∧
    (MAX_MONEY_MSAT < a.to_msat + b.to_msat →
      Amount.add a b = none) := by
  have hcap : MAX_MONEY_MSAT + MAX_MONEY_MSAT < u64Mod := by decide
  have hmod : (a.msat + b.msat) % u64Mod = a.msat + b.msat :=
    Nat.mod_eq_of_lt (by omega)
  simp only [Amount.to_msat]
  constructor
  · intro h
    have : Amount.add a b = some ⟨a.msat + b.msat⟩ := by
      rw [Amount.add]
      simp only [hmod]
      rw [if_pos h]
    exact ⟨this, by rw [this]; rfl⟩
  · intro h
    rw [Amount.add]
    simp only [hmod]
    rw [if_neg (Nat.not_le.mpr h)]

theorem amount_add_correct_witness :
    Amount.add ⟨1000⟩ ⟨234⟩ = some ⟨1234⟩ :=
  ((amount_add_correct ⟨1000⟩ ⟨234⟩ (by decide) (by decide)).1 (by decide)).1

/-- **C6.** For every in-bound amount, `to_sat_floor ≤ to_sat_round ≤
to_sat_ceiling`; `to_sat` succeeds iff the value is an exact multiple of
1000 (otherwise a `FractionError` carrying the value), and on success it
equals all three rounding variants. -/
theorem amount_to_sat_relations (a : Amount) (ha : a.msat ≤ MAX_MONEY_MSAT) :
    Amount.to_sat_floor a ≤ Amount.to_sat_round a ∧
    Amount.to_sat_round a ≤ Amount.to_sat_ceiling a ∧
    (a.msat % 1000 = 0 →
      Amount.to_sat a = .ok (Amount.to_sat_floor a) ∧
      Amount.to_sat_round a = Amount.to_sat_floor a ∧
      Amount.to_sat_ceiling a = Amount.to_sat_floor a) ∧
    (a.msat % 1000 ≠ 0 → Amount.to_sat a = .error ⟨a.msat⟩) := by
  have hcap : MAX_MONEY_MSAT + 999 < u64Mod := by decide
  have h999 : (a.msat + 999) % u64Mod = a.msat + 999 := Nat.mod_eq_of_lt (by omega)
  have h500 : (a.msat + 500) % u64Mod = a.msat + 500 := Nat.mod_eq_of_lt (by omega)
  have hflr : Amount.to_sat_floor a = a.msat / 1000 := rfl
  have hcei : Amount.to_sat_ceiling a = (a.msat + 999) / 1000 := by
    rw [Amount.to_sat_ceiling, h999]
  have hrnd : Amount.to_sat_round a = (a.msat + 500) / 1000 := by
    rw [Amount.to_sat_round, h500]
  refine ⟨by rw [hflr, hrnd]; omega, by rw [hrnd, hcei]; omega, ?_, ?_⟩
  · intro h
    rw [Amount.to_sat, if_pos h, hflr, hcei, hrnd]
    refine ⟨rfl, by omega, by omega⟩
  · intro h
    rw [Amount.to_sat, if_neg h]

theorem amount_to_sat_relations_witness :
    Amount.to_sat ⟨2000⟩ = .ok (Amount.to_sat_floor ⟨2000⟩) :=
  ((amount_to_sat_relations ⟨2000⟩ (by decide)).2.2.1 (by decide)).1

/-- **C9.** For every in-bound amount the internal `u64` computations
`(v+999)/1000` and `(v+500)/1000` cannot overflow, the three rounding
conversions always succeed, and they equal the floor, ceiling and
round-half-up of `v / 1000` respectively. -/
theorem amount_rounding_safe (a : Amount) (ha : a.msat ≤ MAX_MONEY_MSAT) :
    (a.msat + 999) % u64Mod = a.msat + 999 ∧
    (a.msat + 500) % u64Mod = a.msat + 500 ∧
    Amount.to_sat_floor a = a.msat / 1000 ∧
    Amount.to_sat_ceiling a = a.msat / 1000 + (if a.msat % 1000 = 0 then 0 else 1) ∧
    Amount.to_sat_round a = a.msat / 1000 + (if a.msat % 1000 < 500 then 0 else 1) := by
  have hcap : MAX_MONEY_MSAT + 999 < u64Mod := by decide
  have h999 : (a.msat + 999) % u64Mod = a.msat + 999 := Nat.mod_eq_of_lt (by omega)
  have h500 : (a.msat + 500) % u64Mod = a.msat + 500 := Nat.mod_eq_of_lt (by omega)
  have hcei : Amount.to_sat_ceiling a = (a.msat + 999) / 1000 := by
    rw [Amount.to_sat_ceiling, h999]
  have hrnd : Amount.to_sat_round a = (a.msat + 500) / 1000 := by
    rw [Amount.to_sat_round, h500]
  refine ⟨h999, h500, rfl, ?_, ?_⟩
  · rw [hcei]
    split <;> omega
  · rw [hrnd]
    split <;> omega

theorem amount_rounding_safe_witness :
    Amount.to_sat_ceiling ⟨1001⟩ = 1001 / 1000 + (if 1001 % 1000 = 0 then 0 else 1) :=
  (amount_rounding_safe ⟨1001⟩ (by decide)).2.2.2.1

/-- **C7.** Text round-trip for `Amount`: for every `x` within the supply
cap, `Display` renders `from_msat(x)` as the decimal digits of `x` followed
by `" msat"`, parsing that string yields `from_msat(x)` back, and parsing
the bare decimal digits (no suffix) also succeeds with the same value. -/
theorem amount_text_round_trip (x : Nat) (hx : x ≤ MAX_MONEY_MSAT) :
    Amount.from_msat x = .ok ⟨x⟩ ∧
    Amount.display ⟨x⟩ = natBaseChars 10 x ++ Amount.msatSuffix ∧
    Amount.parse_raw (Amount.display ⟨x⟩) = .ok ⟨x⟩ ∧
    Amount.parse_raw (natBaseChars 10 x) = .ok ⟨x⟩ := by
  have hcap : MAX_MONEY_MSAT < u64Mod := by decide
  have hok : Amount.from_msat x = .ok ⟨x⟩ := by
    rw [Amount.from_msat, if_neg (Nat.not_lt.mpr hx)]
  have hparse : rustParseUInt u64Mod (natBaseChars 10 x) = some x :=
    rustParseUInt_natBaseChars u64Mod x (by omega)
  refine ⟨hok, rfl, ?_, ?_⟩
  · rw [Amount.parse_raw]
    have hsuf : Amount.msatSuffix.isSuffixOf (Amount.display ⟨x⟩) = true := by
      rw [List.isSuffixOf_iff_suffix]
      exact List.suffix_append _ _
    have hlen : (Amount.display ⟨x⟩).length = (natBaseChars 10 x).length + 5 := by
      rw [Amount.display, List.length_append]
      rfl
    have htake : (Amount.display ⟨x⟩).take ((Amount.display ⟨x⟩).length - 5) =
        natBaseChars 10 x := by
      rw [hlen, Nat.add_sub_cancel, Amount.display, List.take_left]
    simp only [hsuf, if_true, htake, hparse, hok]
  · rw [Amount.parse_raw]
    have hnosuf : Amount.msatSuffix.isSuffixOf (natBaseChars 10 x) = false := by
      rw [Bool.eq_false_iff, ne_eq, List.isSuffixOf_iff_suffix]
      intro hsuf
      have hmem : ' ' ∈ natBaseChars 10 x := hsuf.subset (by decide)
      obtain ⟨v, hv, hc⟩ := mem_natBaseChars 10 x (by omega) ' ' hmem
      have : isAsciiDigit (digitChar v) = true := isAsciiDigit_digitChar v hv
      rw [← hc] at this
      exact absurd this (by decide)
    simp only [hnosuf, Bool.false_eq_true, if_false, hparse, hok]

theorem amount_text_round_trip_witness :
    Amount.parse_raw (Amount.display ⟨42⟩) = .ok ⟨42⟩ :=
  (amount_text_round_trip 42 (by decide)).2.2.1

/-- **C8.** Bound-invariant preservation: every `Amount` produced by the
constructors, the parser, or the arithmetic operators satisfies
`value ≤ 21_000_000 × 10^8 × 1000`; division and remainder by a nonzero
scalar always succeed (no bound check needed) and stay within the bound,
and subtraction, when it does not panic, stays within the bound. -/
theorem amount_invariant_preserved :
    (∀ v a, Amount.from_msat v = .ok a → a.msat ≤ MAX_MONEY_MSAT) ∧
    (∀ s a, Amount.from_sat s = .ok a → a.msat ≤ MAX_MONEY_MSAT) ∧
    (∀ s a, Amount.parse_raw s = .ok a → a.msat ≤ MAX_MONEY_MSAT) ∧
    (∀ a b c, Amount.add a b = some c → c.msat ≤ MAX_MONEY_MSAT) ∧
    (∀ a b c, a.msat ≤ MAX_MONEY_MSAT → Amount.sub a b = some c →
      c.msat ≤ MAX_MONEY_MSAT) ∧
    (∀ a r c, Amount.mul a r = some c → c.msat ≤ MAX_MONEY_MSAT) ∧
    (∀ a r, a.msat ≤ MAX_MONEY_MSAT → r ≠ 0 →
      Amount.div a r = some ⟨a.msat / r⟩ ∧ a.msat / r ≤ MAX_MONEY_MSAT ∧
      Amount.rem a r = some ⟨a.msat % r⟩ ∧ a.msat % r ≤ MAX_MONEY_MSAT) := by
  have hmsat : ∀ v a, Amount.from_msat v = .ok a → a.msat ≤ MAX_MONEY_MSAT := by
    intro v a h
    rw [Amount.from_msat] at h
    split at h
    · exact absurd h (by simp)
    · cases h
      show v ≤ MAX_MONEY_MSAT
      omega
  refine ⟨hmsat, ?_, ?_, ?_, ?_, ?_, ?_⟩
  · intro s a h
    rw [Amount.from_sat] at h
    split at h
    · exact absurd h (by simp)
    · cases h
      rename_i hle
      have hs : s ≤ MAX_MONEY_SAT := by omega
      have : s * 1000 ≤ MAX_MONEY_MSAT := by
        rw [MAX_MONEY_MSAT]
        exact Nat.mul_le_mul_right 1000 hs
      have hcap : MAX_MONEY_MSAT < u64Mod := by decide
      calc (s * 1000) % u64Mod ≤ s * 1000 := Nat.mod_le _ _
        _ ≤ MAX_MONEY_MSAT := this
  · intro s a h
    rw [Amount.parse_raw] at h
    split at h
    · exact absurd h (by simp)
    · split at h
      · exact absurd h (by simp)
      · cases h
        exact hmsat _ _ (by assumption)
  · intro a b c h
    rw [Amount.add] at h
    split at h
    · cases h
      assumption
    · exact absurd h (by simp)
  · intro a b c ha h
    rw [Amount.sub] at h
    split at h
    · cases h
      simp only
      omega
    · exact absurd h (by simp)
  · intro a r c h
    rw [Amount.mul] at h
    split at h
    · split at h
      · cases h
        rename_i hm hle
        split at hm
        · cases hm
          assumption
        · exact absurd hm (by simp)
      · exact absurd h (by simp)
    · exact absurd h (by simp)
  · intro a r ha hr
    refine ⟨by rw [Amount.div, if_neg hr], ?_, by rw [Amount.rem, if_neg hr], ?_⟩
    · calc a.msat / r ≤ a.msat := Nat.div_le_self _ _
        _ ≤ MAX_MONEY_MSAT := ha
    · calc a.msat % r ≤ a.msat := Nat.mod_le _ _
        _ ≤ MAX_MONEY_MSAT := ha

theorem amount_invariant_preserved_witness :
    Amount.div ⟨2100⟩ 3 = some ⟨2100 / 3⟩ ∧ 2100 / 3 ≤ MAX_MONEY_MSAT :=
  let h := amount_invariant_preserved.2.2.2.2.2.2 ⟨2100⟩ 3 (by decide) (by decide)
  ⟨h.1, h.2.1⟩

/-! ## Rust's IP-address parser (`core::net::parser`)

`p2p_address.rs` delegates host classification to `str::parse::<Ipv4Addr>`
and `str::parse::<Ipv6Addr>`; these model the standard library's parser. -/

/-- `char::to_digit(radix)`. -/
def toDigit (radix : Nat) (c : Char) : Option Nat :=
  let n := c.toNat
  let d : Option Nat :=
    if 48 ≤ n ∧ n ≤ 57 then some (n - 48)
    else if 97 ≤ n ∧ n ≤ 122 then some (n - 87)
    else if 65 ≤ n ∧ n ≤ 90 then some (n - 55)
    else none
  match d with
  | some v => if v < radix then some v else none
  | none => none

/-- `Parser::read_number(radix, max_digits, allow_zero_prefix)` with the
overflow bound `B` of the target integer type: reads the maximal digit run,
then fails on empty input, too many digits, a disallowed leading zero, or
overflow (checked arithmetic fails exactly when the value reaches `B`). -/
def readNumber (radix B : Nat) (maxDigits : Option Nat) (allowZeroPre : Bool)
    (s : List Char) : Option (Nat × List Char) :=
  let ds := s.takeWhile fun c => (toDigit radix c).isSome
  let rest := s.dropWhile fun c => (toDigit radix c).isSome
  if ds.length = 0 then none
  else if (match maxDigits with
    | some m => decide (m < ds.length)
    | none => false) = true then none
  else if allowZeroPre = false ∧ ds.head? = some '0' ∧ 1 < ds.length then none
  else
    let v := ds.foldl (fun acc c => acc * radix + (toDigit radix c).getD 0) 0
    if v < B then some (v, rest) else none

/-- `Parser::read_given_char` / `read_separator`: consume one expected
character. -/
def expectChar (c : Char) (s : List Char) : Option (List Char) :=
  match s with
  | x :: xs => if x = c then some xs else none
  | _ => none

/-- `Parser::read_ipv4_addr`: four octets (`read_number(10, Some(3), false)`
into `u8`) separated by dots. -/
def readIpv4 (s : List Char) : Option ((Nat × Nat × Nat × Nat) × List Char) :=
  (readNumber 10 256 (some 3) false s).bind fun p1 =>
  (expectChar '.' p1.2).bind fun r2 =>
  (readNumber 10 256 (some 3) false r2).bind fun p2 =>
  (expectChar '.' p2.2).bind fun r4 =>
  (readNumber 10 256 (some 3) false r4).bind fun p3 =>
  (expectChar '.' p3.2).bind fun r6 =>
  (readNumber 10 256 (some 3) false r6).bind fun p4 =>
  some ((p1.1, p2.1, p3.1, p4.1), p4.2)

/-- The two 16-bit groups contributed by a trailing embedded IPv4 address. -/
def v4Groups (o : Nat × Nat × Nat × Nat) : List Nat :=
  [o.1 * 256 + o.2.1, o.2.2.1 * 256 + o.2.2.2]

/-- `read_groups` from `read_ipv6_addr`: reads up to `rem` colon-separated
16-bit hex groups (`first` marks index 0, which takes no separator); while
at least two slots remain, a trailing embedded IPv4 address is tried first.
Returns the groups read, the remaining input, and whether an embedded IPv4
address ended the run. -/
def readGroupsAux : Nat → Bool → List Char → List Nat × List Char × Bool
  | 0, _, s => ([], s, false)
  | rem + 1, first, s =>
    let afterSep : Option (List Char) :=
      if first then some s else expectChar ':' s
    let v4try : Option ((Nat × Nat × Nat × Nat) × List Char) :=
      if 1 ≤ rem then afterSep.bind readIpv4 else none
    match v4try with
    | some (octs, rest) => (v4Groups octs, rest, true)
    | none =>
      match afterSep.bind (readNumber 16 65536 (some 4) true) with
      | some (g, rest) =>
        let r := readGroupsAux rem false rest
        (g :: r.1, r.2.1, r.2.2)
      | none => ([], s, false)

/-- `Parser::read_ipv6_addr`: a head run of groups; if fewer than 8, a `::`
(rejected when the head ended in an embedded IPv4 address) followed by a
tail run filling the end of the address, the gap being zero groups. -/
def readIpv6 (s : List Char) : Option (List Nat × List Char) :=
  let head := readGroupsAux 8 true s
  if head.1.length = 8 then some (head.1, head.2.1)
  else if head.2.2 then none
  else
    match head.2.1 with
    | ':' :: ':' :: rest2 =>
      let limit := 8 - (head.1.length + 1)
      let tail := readGroupsAux limit true rest2
      some (head.1 ++ List.replicate (8 - head.1.length - tail.1.length) 0 ++ tail.1,
        tail.2.1)
    | _ => none

/-- `str::parse::<Ipv4Addr>()`: the whole input must be consumed. -/
def ipv4Full (s : List Char) : Option (Nat × Nat × Nat × Nat) :=
  match readIpv4 s with
  | some (o, []) => some o
  | _ => none

/-- `str::parse::<Ipv6Addr>()`: the whole input must be consumed. -/
def ipv6Full (s : List Char) : Option (List Nat) :=
  match readIpv6 s with
  | some (g, []) => some g
  | _ => none

/-! ## Rust's IP-address `Display` -/

/-- `Display for Ipv4Addr`: `a.b.c.d` in decimal. -/
def ipv4Display (o : Nat × Nat × Nat × Nat) : List Char :=
  natBaseChars 10 o.1 ++ '.' :: natBaseChars 10 o.2.1 ++
    '.' :: natBaseChars 10 o.2.2.1 ++ '.' :: natBaseChars 10 o.2.2.2

/-- One step of the zero-run scan in `Display for Ipv6Addr`: the state is
`(longest, current, index)`. -/
def lzrStep (st : (Nat × Nat) × (Nat × Nat) × Nat) (seg : Nat) :
    (Nat × Nat) × (Nat × Nat) × Nat :=
  let longest := st.1
  let current := st.2.1
  let i := st.2.2
  if seg = 0 then
    let current2 := if current.2 = 0 then (i, 1) else (current.1, current.2 + 1)
    let longest2 := if longest.2 < current2.2 then current2 else longest
    (longest2, current2, i + 1)
  else (longest, (0, 0), i + 1)

/-- The scan from `Display for Ipv6Addr` finding the leftmost longest run of
zero segments: returns `(start, len)`. -/
def longestZeroRun (segs : List Nat) : Nat × Nat :=
  (segs.foldl lzrStep ((0, 0), (0, 0), 0)).1

/-- Lower-case hex groups joined by `:` (no leading group). -/
def colonTail (gs : List Nat) : List Char :=
  (gs.map fun h => ':' :: natBaseChars 16 h).flatten

/-- Lower-case hex groups joined by `:`. -/
def colonJoinHex (gs : List Nat) : List Char :=
  match gs with
  | [] => []
  | g :: rest => natBaseChars 16 g ++ colonTail rest

/-- `Display for Ipv6Addr` (default formatting): an IPv4-mapped address
prints as `::ffff:a.b.c.d`; otherwise the leftmost longest run of at least
two zero groups is compressed to `::`. -/
def ipv6Display (g : List Nat) : List Char :=
  if g.take 5 = [0, 0, 0, 0, 0] ∧ g.getD 5 0 = 65535 then
    ':' :: ':' :: 'f' :: 'f' :: 'f' :: 'f' :: ':' ::
      ipv4Display (g.getD 6 0 / 256, g.getD 6 0 % 256, g.getD 7 0 / 256, g.getD 7 0 % 256)
  else if 1 < (longestZeroRun g).2 then
    colonJoinHex (g.take (longestZeroRun g).1) ++ ':' :: ':' ::
      colonJoinHex (g.drop ((longestZeroRun g).1 + (longestZeroRun g).2))
  else colonJoinHex g

/-! ## NodeId, Host and P2PAddress (embedding of `src/p2p_address.rs`) -/

/-- Hex-digit test used by the identity parser. -/
def isHexDigitChar (c : Char) : Bool := (toDigit 16 c).isSome

/-- The peer identity, stored as its 66 hex-digit values. -/
structure NodeId where
  nibbles : List Nat
  deriving DecidableEq, Repr

/-- Modelled from the spec: the identity type (`NodeId`, from the crate's
`node_id` module, which is not among the given sources) is an "opaque,
already-parseable/displayable 66-hex-character public key"; parsing accepts
exactly 66 hex digits of either case ("invalid length (must be 66 chars)"
otherwise), and hex case is normalized on output. -/
def nodeIdParse (s : List Char) : Option NodeId :=
  if s.length = 66 ∧ s.all isHexDigitChar then
    some ⟨s.map fun c => (toDigit 16 c).getD 0⟩
  else none

/-- Modelled from the spec: `{:x}` formatting of the identity renders it as
lower-case hex. -/
def nodeIdDisplay (n : NodeId) : List Char := n.nibbles.map digitChar

/-- `core::net::IpAddr`, with IPv4 as four octets and IPv6 as its eight
16-bit segments. -/
inductive IpAddr where
  | v4 (o : Nat × Nat × Nat × Nat)
  | v6 (groups : List Nat)
  deriving DecidableEq, Repr

/-- `Host(HostInner)`: an IP address or (with the `alloc` feature) an owned
hostname. -/
inductive Host where
  | ip (a : IpAddr)
  | hostname (name : List Char)
  deriving DecidableEq, Repr

/-- `pub struct P2PAddress { node_id, host, port }` -/
structure P2PAddress where
  node_id : NodeId
  host : Host
  port : Nat
  deriving DecidableEq, Repr

/-- `enum ParseErrorInner` from `p2p_address.rs` (error payloads collapsed). -/
inductive P2PParseInner where
  | missingAtSymbol
  | invalidNodeId
  | invalidPortNumber
  | invalidIpv6
  deriving DecidableEq, Repr

/-- `ParseError { input, reason }` from `p2p_address.rs`. -/
structure P2PParseError where
  input : List Char
  reason : P2PParseInner
  deriving DecidableEq, Repr

/-- `enum IpOrHostnamePos`: an already-parsed IP, or the byte range of a
hostname within the original input. -/
inductive IpOrHostnamePos where
  | ip (a : IpAddr)
  | hostname (b e : Nat)
  deriving DecidableEq, Repr

/-- `const LN_DEFAULT_PORT: u16 = 9735` -/
def LN_DEFAULT_PORT : Nat := 9735

/-- Index of the first occurrence of `c` (`str::find`). -/
def firstIdx (c : Char) : List Char → Option Nat
  | [] => none
  | x :: xs => if x = c then some 0 else (firstIdx c xs).map (· + 1)

/-- Index of the last occurrence of `c` (`str::rfind`). -/
def lastIdx (c : Char) : List Char → Option Nat
  | [] => none
  | x :: xs =>
    match lastIdx c xs with
    | some i => some (i + 1)
    | none => if x = c then some 0 else none

namespace P2PAddress

/-- The `match` on `(host_port.starts_with('[') && host_port.ends_with(']'),
host_port.rfind(':'))` in `parse_raw` determining the end of the host part
and the port. -/
def hostEndPort (host_port : List Char) : Except P2PParseInner (Nat × Nat) :=
  match host_port.head? == some '[' && host_port.getLast? == some ']',
      lastIdx ':' host_port with
  | true, _ => .ok (host_port.length, LN_DEFAULT_PORT)
  | false, some pos =>
    match rustParseUInt 65536 (host_port.drop (pos + 1)) with
    | some p => .ok (pos, p)
    | none => .error .invalidPortNumber
  | false, none => .ok (host_port.length, LN_DEFAULT_PORT)

/-- `P2PAddress::parse_raw`: split at the first `@`, parse the identity,
determine host end and port, then classify the host (IPv4 literal, then
bracketed IPv6 literal, then hostname range). -/
def parse_raw (s : List Char) :
    Except P2PParseInner (NodeId × IpOrHostnamePos × Nat) :=
  match firstIdx '@' s with
  | none => .error .missingAtSymbol
  | some at_pos =>
    match nodeIdParse (s.take at_pos) with
    | none => .error .invalidNodeId
    | some node_id =>
      match hostEndPort (s.drop (at_pos + 1)) with
      | .error e => .error e
      | .ok (host_end, port) =>
        match ipv4Full ((s.drop (at_pos + 1)).take host_end) with
        | some ip => .ok (node_id, .ip (.v4 ip), port)
        | none =>
          if ((s.drop (at_pos + 1)).take host_end).head? == some '[' &&
              ((s.drop (at_pos + 1)).take host_end).getLast? == some ']' then
            match ipv6Full (((s.drop (at_pos + 1)).drop 1).take
                (((s.drop (at_pos + 1)).take host_end).length - 1 - 1)) with
            | some ip6 => .ok (node_id, .ip (.v6 ip6), port)
            | none => .error .invalidIpv6
          else .ok (node_id, .hostname (at_pos + 1) (at_pos + 1 + host_end), port)

/-- `P2PAddress::internal_parse`: run `parse_raw`, then materialize a
hostname range as the owned substring (`StringOps::into_substring`). -/
def internalParse (s : List Char) : Except P2PParseError P2PAddress :=
  match parse_raw s with
  | .error e => .error ⟨s, e⟩
  | .ok (node_id, .hostname b e, port) =>
    .ok ⟨node_id, .hostname ((s.drop b).take (e - b)), port⟩
  | .ok (node_id, .ip a, port) => .ok ⟨node_id, .ip a, port⟩

end P2PAddress

/-- `Display for Host`: IP via the standard textual form, hostname verbatim. -/
def hostDisplay (h : Host) : List Char :=
  match h with
  | .ip (.v4 o) => ipv4Display o
  | .ip (.v6 g) => ipv6Display g
  | .hostname n => n

/-- `Display for HostPort`: IPv6 hosts are wrapped in square brackets before
`:port`; every other host prints unbracketed. -/
def hostPortDisplay (h : Host) (port : Nat) : List Char :=
  match h with
  | .ip (.v6 g) => '[' :: ipv6Display g ++ ']' :: ':' :: natBaseChars 10 port
  | _ => hostDisplay h ++ ':' :: natBaseChars 10 port

/-- `Display for P2PAddress` (non-alternate): lower-case hex identity, `@`,
then the `HostPort` form — the port is always emitted. -/
def P2PAddress.display (a : P2PAddress) : List Char :=
  nodeIdDisplay a.node_id ++ '@' :: hostPortDisplay a.host a.port

/-! ## List scanning lemmas -/

theorem takeWhile_append_all {p : Char → Bool} (xs : List Char) :
    ∀ rest : List Char, (∀ x ∈ xs, p x = true) →
    (∀ c, rest.head? = some c → p c = false) →
    (xs ++ rest).takeWhile p = xs ∧ (xs ++ rest).dropWhile p = rest := by
  induction xs with
  | nil =>
    intro rest _ hrest
    cases rest with
    | nil => exact ⟨rfl, rfl⟩
    | cons c cs =>
      have := hrest c rfl
      simp only [List.nil_append, List.takeWhile_cons, List.dropWhile_cons, this]
      exact ⟨rfl, rfl⟩
  | cons x xs ih =>
    intro rest hxs hrest
    have hx : p x = true := hxs x (List.mem_cons_self _ _)
    have := ih rest (fun y hy => hxs y (List.mem_cons_of_mem _ hy)) hrest
    constructor
    · simp only [List.cons_append, List.takeWhile_cons, hx, if_true, this.1]
    · simp only [List.cons_append, List.dropWhile_cons, hx, if_true, this.2]

theorem head_dropWhile_append {p : Char → Bool} (xs : List Char) :
    ∀ (ys : List Char) (c : Char),
    ((xs ++ ys).dropWhile p).head? = some c → c ∈ xs ∨ (ys.dropWhile p).head? = some c := by
  induction xs with
  | nil =>
    intro ys c h
    exact .inr h
  | cons x xs ih =>
    intro ys c h
    simp only [List.cons_append, List.dropWhile_cons] at h
    by_cases hx : p x = true
    · rw [if_pos hx] at h
      rcases ih ys c h with hm | hm
      · exact .inl (List.mem_cons_of_mem _ hm)
      · exact .inr hm
    · rw [if_neg hx] at h
      simp only [List.head?_cons, Option.some.injEq] at h
      exact .inl (h ▸ List.mem_cons_self _ _)

/-! ## Digit-character facts -/

theorem toDigit_ten_digitChar (v : Nat) (hv : v < 10) :
    toDigit 10 (digitChar v) = some v := by
  interval_cases v <;> decide

theorem toDigit_sixteen_digitChar (v : Nat) (hv : v < 16) :
    toDigit 16 (digitChar v) = some v := by
  interval_cases v <;> decide

/-- Digit characters are none of the structural delimiter characters. -/
theorem digitChar_not_special (v : Nat) (hv : v < 16) :
    digitChar v ≠ '.' ∧ digitChar v ≠ ':' ∧ digitChar v ≠ '@' ∧
    digitChar v ≠ '[' ∧ digitChar v ≠ ']' ∧ digitChar v ≠ '+' ∧
    digitChar v ≠ ' ' := by
  interval_cases v <;> refine ⟨by decide, by decide, by decide, by decide,
    by decide, by decide, by decide⟩

theorem natBaseChars_length_le (b : Nat) (hb : 2 ≤ b) :
    ∀ n k, 1 ≤ k → n < b ^ k → (natBaseChars b n).length ≤ k := by
  intro n
  induction n using Nat.strong_induction_on with
  | _ n ih =>
    intro k hk hn
    by_cases h : n < b ∨ b ≤ 1
    · rw [natBaseChars_base b n h]
      simpa using hk
    · push_neg at h
      rw [natBaseChars_step b n (by push_neg; exact h)]
      rw [List.length_append, List.length_singleton]
      have hk2 : 2 ≤ k := by
        by_contra hk1
        push_neg at hk1
        have hke : k = 1 := by omega
        subst hke
        rw [pow_one] at hn
        omega
      have hdiv : n / b < b ^ (k - 1) := by
        rw [Nat.div_lt_iff_lt_mul (by omega)]
        calc n < b ^ k := hn
          _ = b ^ (k - 1) * b := by
            rw [← pow_succ]
            congr 1
            omega
      have := ih (n / b) (Nat.div_lt_self (by omega) (by omega)) (k - 1) (by omega) hdiv
      omega

theorem natBaseChars_head_ne_zero (b : Nat) (hb : 2 ≤ b) (hb16 : b ≤ 16) :
    ∀ n, n ≠ 0 → (natBaseChars b n).head? ≠ some '0' := by
  intro n
  induction n using Nat.strong_induction_on with
  | _ n ih =>
    intro hn
    by_cases h : n < b ∨ b ≤ 1
    · rw [natBaseChars_base b n h]
      have hlt : n < 16 := by omega
      simp only [List.head?_cons, ne_eq, Option.some.injEq]
      intro hc
      have : n = 0 := by
        interval_cases n <;> first | rfl | exact absurd hc (by decide)
      exact hn this
    · rw [natBaseChars_step b n (by push_neg at h ⊢; exact h)]
      push_neg at h
      have hne := natBaseChars_ne_nil b (n / b)
      have hdiv0 : n / b ≠ 0 := by
        have : b ≤ n := by omega
        have := Nat.one_le_div_iff (show 0 < b by omega) |>.mpr this
        omega
      have := ih (n / b) (Nat.div_lt_self (by omega) (by omega)) hdiv0
      intro hc
      apply this
      rw [← hc]
      cases hnb : natBaseChars b (n / b) with
      | nil => exact absurd hnb hne
      | cons y ys => simp

/-- No canonical digit string trips the leading-zero rejection. -/
theorem natBaseChars_no_leading_zero (b : Nat) (hb : 2 ≤ b) (hb16 : b ≤ 16) (n : Nat) :
    ¬((natBaseChars b n).head? = some '0' ∧ 1 < (natBaseChars b n).length) := by
  rintro ⟨hhead, hlen⟩
  by_cases hn : n = 0
  · subst hn
    rw [natBaseChars_base b 0 (.inl (by omega))] at hlen
    simp at hlen
  · exact natBaseChars_head_ne_zero b hb hb16 n hn hhead

/-- The digit fold of `readNumber` over a canonical digit string, for a base
whose digit characters decode correctly. -/
theorem foldl_natBaseChars_toDigit (b : Nat) (hb : 2 ≤ b)
    (hdig : ∀ v, v < b → toDigit b (digitChar v) = some v) :
    ∀ n a : Nat,
      (natBaseChars b n).foldl (fun acc c => acc * b + (toDigit b c).getD 0) a =
        a * b ^ (natBaseChars b n).length + n := by
  intro n
  induction n using Nat.strong_induction_on with
  | _ n ih =>
    intro a
    by_cases h : n < b ∨ b ≤ 1
    · rw [natBaseChars_base b n h]
      simp only [List.foldl_cons, List.foldl_nil, List.length_singleton, pow_one]
      rw [hdig n (by omega)]
      rfl
    · rw [natBaseChars_step b n h]
      push_neg at h
      rw [List.foldl_append, List.length_append]
      rw [ih (n / b) (Nat.div_lt_self (by omega) (by omega)) a]
      simp only [List.foldl_cons, List.foldl_nil, List.length_singleton]
      rw [hdig (n % b) (Nat.mod_lt _ (by omega))]
      simp only [Option.getD_some]
      rw [pow_add, pow_one, ← Nat.mul_assoc, Nat.add_mul]
      have h1 : b * (n / b) + n % b = n := Nat.div_add_mod n b
      have h2 : n / b * b = b * (n / b) := Nat.mul_comm _ _
      omega

/-- All characters of a canonical digit string are digits of the base. -/
theorem natBaseChars_isSome (b : Nat) (hb : 2 ≤ b)
    (hdig : ∀ v, v < b → toDigit b (digitChar v) = some v) (n : Nat) :
    ∀ x ∈ natBaseChars b n, (toDigit b x).isSome = true := by
  intro x hx
  obtain ⟨v, hv, rfl⟩ := mem_natBaseChars b n hb x hx
  rw [hdig v hv]
  rfl

/-- `read_number` consumes exactly the canonical digit string of `n` when the
following characters are not digits, and yields `n`. -/
theorem readNumber_exact (radix B : Nat) (hb : 2 ≤ radix) (hb16 : radix ≤ 16)
    (hdig : ∀ v, v < radix → toDigit radix (digitChar v) = some v)
    (maxD : Option Nat) (az : Bool) (n : Nat) (rest : List Char)
    (hB : n < B)
    (hlen : ∀ m, maxD = some m → (natBaseChars radix n).length ≤ m)
    (hrest : ∀ c, rest.head? = some c → toDigit radix c = none) :
    readNumber radix B maxD az (natBaseChars radix n ++ rest) = some (n, rest) := by
  have htw := takeWhile_append_all (p := fun c => (toDigit radix c).isSome)
    (natBaseChars radix n) rest (natBaseChars_isSome radix hb hdig n)
    (fun c hc => by
      have := hrest c hc
      simp [this])
  rw [readNumber.eq_def]
  simp only [htw.1, htw.2]
  rw [if_neg (by
    intro hlen0
    exact natBaseChars_ne_nil radix n (List.length_eq_zero.mp hlen0))]
  rw [if_neg (by
    cases maxD with
    | none => simp
    | some m =>
      simp only [decide_eq_true_eq]
      exact Nat.not_lt.mpr (hlen m rfl))]
  rw [if_neg (by
    rintro ⟨-, hzero⟩
    exact natBaseChars_no_leading_zero radix hb hb16 n hzero)]
  simp only [foldl_natBaseChars_toDigit radix hb hdig n 0, Nat.zero_mul, Nat.zero_add]
  rw [if_pos hB]

/-- `read_number` fails when the input does not start with a digit. -/
theorem readNumber_none_of_head (radix B : Nat) (maxD : Option Nat) (az : Bool)
    (s : List Char) (h : ∀ c, s.head? = some c → toDigit radix c = none) :
    readNumber radix B maxD az s = none := by
  rw [readNumber.eq_def]
  have htw : s.takeWhile (fun c => (toDigit radix c).isSome) = [] := by
    cases s with
    | nil => rfl
    | cons c cs =>
      rw [List.takeWhile_cons]
      rw [h c rfl]
      rfl
  simp only [htw]
  rfl

/-- A successful `read_number` leaves exactly the non-digit tail. -/
theorem readNumber_rest (radix B : Nat) (maxD : Option Nat) (az : Bool)
    (s : List Char) (v : Nat) (r : List Char)
    (h : readNumber radix B maxD az s = some (v, r)) :
    r = s.dropWhile fun c => (toDigit radix c).isSome := by
  rw [readNumber.eq_def] at h
  simp only at h
  split at h
  · exact absurd h (by simp)
  · split at h
    · exact absurd h (by simp)
    · split at h
      · exact absurd h (by simp)
      · split at h
        · cases h
          rfl
        · exact absurd h (by simp)

/-- A successful `read_number` yields a value below the type bound. -/
theorem readNumber_bound (radix B : Nat) (maxD : Option Nat) (az : Bool)
    (s : List Char) (v : Nat) (r : List Char)
    (h : readNumber radix B maxD az s = some (v, r)) : v < B := by
  rw [readNumber.eq_def] at h
  simp only at h
  split at h
  · exact absurd h (by simp)
  · split at h
    · exact absurd h (by simp)
    · split at h
      · exact absurd h (by simp)
      · split at h
        · rename_i hlt
          cases h
          exact hlt
        · exact absurd h (by simp)

theorem expectChar_cons_self (c : Char) (xs : List Char) :
    expectChar c (c :: xs) = some xs := by
  simp [expectChar]

/-! ## IPv4 parsing lemmas -/

/-- `read_ipv4_addr` fails when the input does not start with a decimal
digit. -/
theorem readIpv4_none_of_head (s : List Char)
    (h : ∀ c, s.head? = some c → toDigit 10 c = none) : readIpv4 s = none := by
  rw [readIpv4]
  rw [readNumber_none_of_head 10 256 (some 3) false s h]
  rfl

/-- Reading an IPv4 address from its canonical rendering. -/
theorem readIpv4_display (a b c d : Nat)
    (ha : a < 256) (hb : b < 256) (hc : c < 256) (hd : d < 256)
    (rest : List Char) (hrest : ∀ ch, rest.head? = some ch → toDigit 10 ch = none) :
    readIpv4 (ipv4Display (a, b, c, d) ++ rest) = some ((a, b, c, d), rest) := by
  have hdot : ∀ (t : List Char) (ch : Char), (('.' :: t).head? = some ch) →
      toDigit 10 ch = none := by
    intro t ch hch
    simp only [List.head?_cons, Option.some.injEq] at hch
    subst hch
    decide
  have hlen3 : ∀ o : Nat, o < 256 → ∀ m, (some 3 : Option Nat) = some m →
      (natBaseChars 10 o).length ≤ m := by
    intro o ho m hm
    cases hm
    exact natBaseChars_length_le 10 (by omega) o 3 (by omega) (by omega)
  have e4 : readNumber 10 256 (some 3) false (natBaseChars 10 d ++ rest) =
      some (d, rest) :=
    readNumber_exact 10 256 (by omega) (by omega) toDigit_ten_digitChar (some 3)
      false d rest hd (hlen3 d hd) hrest
  have e3 : readNumber 10 256 (some 3) false
      (natBaseChars 10 c ++ '.' :: (natBaseChars 10 d ++ rest)) =
      some (c, '.' :: (natBaseChars 10 d ++ rest)) :=
    readNumber_exact 10 256 (by omega) (by omega) toDigit_ten_digitChar (some 3)
      false c _ hc (hlen3 c hc) (hdot _)
  have e2 : readNumber 10 256 (some 3) false
      (natBaseChars 10 b ++ '.' :: (natBaseChars 10 c ++ '.' :: (natBaseChars 10 d ++ rest))) =
      some (b, '.' :: (natBaseChars 10 c ++ '.' :: (natBaseChars 10 d ++ rest))) :=
    readNumber_exact 10 256 (by omega) (by omega) toDigit_ten_digitChar (some 3)
      false b _ hb (hlen3 b hb) (hdot _)
  have e1 : readNumber 10 256 (some 3) false
      (natBaseChars 10 a ++ '.' :: (natBaseChars 10 b ++ '.' ::
        (natBaseChars 10 c ++ '.' :: (natBaseChars 10 d ++ rest)))) =
      some (a, '.' :: (natBaseChars 10 b ++ '.' ::
        (natBaseChars 10 c ++ '.' :: (natBaseChars 10 d ++ rest)))) :=
    readNumber_exact 10 256 (by omega) (by omega) toDigit_ten_digitChar (some 3)
      false a _ ha (hlen3 a ha) (hdot _)
  have hde : ipv4Display (a, b, c, d) ++ rest =
      natBaseChars 10 a ++ '.' :: (natBaseChars 10 b ++ '.' ::
        (natBaseChars 10 c ++ '.' :: (natBaseChars 10 d ++ rest))) := by
    simp [ipv4Display, List.append_assoc]
  rw [readIpv4, hde, e1]
  simp only [Option.some_bind]
  rw [expectChar_cons_self, Option.some_bind, e2, Option.some_bind,
    expectChar_cons_self, Option.some_bind, e3, Option.some_bind,
    expectChar_cons_self, Option.some_bind, e4, Option.some_bind]

/-- The octets of a successfully parsed IPv4 address are bytes. -/
theorem readIpv4_bound (s : List Char) (o : Nat × Nat × Nat × Nat) (r : List Char)
    (h : readIpv4 s = some (o, r)) :
    o.1 < 256 ∧ o.2.1 < 256 ∧ o.2.2.1 < 256 ∧ o.2.2.2 < 256 := by
  rw [readIpv4] at h
  rcases h1 : readNumber 10 256 (some 3) false s with _ | p1
  · rw [h1] at h
    exact absurd h (by simp)
  · rw [h1] at h
    simp only [Option.some_bind] at h
    rcases hx1 : expectChar '.' p1.2 with _ | r2
    · rw [hx1] at h
      exact absurd h (by simp)
    · rw [hx1] at h
      simp only [Option.some_bind] at h
      rcases h2 : readNumber 10 256 (some 3) false r2 with _ | p2
      · rw [h2] at h
        exact absurd h (by simp)
      · rw [h2] at h
        simp only [Option.some_bind] at h
        rcases hx2 : expectChar '.' p2.2 with _ | r4
        · rw [hx2] at h
          exact absurd h (by simp)
        · rw [hx2] at h
          simp only [Option.some_bind] at h
          rcases h3 : readNumber 10 256 (some 3) false r4 with _ | p3
          · rw [h3] at h
            exact absurd h (by simp)
          · rw [h3] at h
            simp only [Option.some_bind] at h
            rcases hx3 : expectChar '.' p3.2 with _ | r6
            · rw [hx3] at h
              exact absurd h (by simp)
            · rw [hx3] at h
              simp only [Option.some_bind] at h
              rcases h4 : readNumber 10 256 (some 3) false r6 with _ | p4
              · rw [h4] at h
                exact absurd h (by simp)
              · rw [h4] at h
                simp only [Option.some_bind, Option.some.injEq] at h
                have hb1 := readNumber_bound _ _ _ _ _ _ _ h1
                have hb2 := readNumber_bound _ _ _ _ _ _ _ h2
                have hb3 := readNumber_bound _ _ _ _ _ _ _ h3
                have hb4 := readNumber_bound _ _ _ _ _ _ _ h4
                cases h
                exact ⟨hb1, hb2, hb3, hb4⟩

/-- `read_ipv4_addr` fails on a lower-case hex group followed by nothing or
a colon: after the initial decimal-digit run there is never a dot. -/
theorem readIpv4_none_hexText (g : Nat) (rest : List Char)
    (hrest : rest = [] ∨ rest.head? = some ':') :
    readIpv4 (natBaseChars 16 g ++ rest) = none := by
  rcases hnum : readNumber 10 256 (some 3) false (natBaseChars 16 g ++ rest) with _ | p
  · rw [readIpv4, hnum]
    rfl
  · have hr := readNumber_rest _ _ _ _ _ _ _ hnum
    have hnd : expectChar '.' p.2 = none := by
      rw [hr]
      rcases hdw : ((natBaseChars 16 g ++ rest).dropWhile
          fun c => (toDigit 10 c).isSome) with _ | ⟨c, cs⟩
      · rfl
      · have hhead : (((natBaseChars 16 g ++ rest).dropWhile
            fun c => (toDigit 10 c).isSome)).head? = some c := by
          rw [hdw]
          rfl
        have hcnot : c ≠ '.' := by
          rcases head_dropWhile_append (natBaseChars 16 g) rest c hhead with hm | hm
          · obtain ⟨v, hv, rfl⟩ := mem_natBaseChars 16 g (by omega) c hm
            exact (digitChar_not_special v hv).1
          · rcases hrest with rfl | hcol
            · exact Option.noConfusion hm
            · cases rest with
              | nil => exact Option.noConfusion hm
              | cons x xs =>
                simp only [List.head?_cons, Option.some.injEq] at hcol
                subst hcol
                have hcond : (toDigit 10 ':').isSome = false := by decide
                rw [List.dropWhile_cons, hcond] at hm
                simp only [Bool.false_eq_true, if_false] at hm
                simp only [List.head?_cons, Option.some.injEq] at hm
                subst hm
                decide
        rw [expectChar]
        simp only [if_neg hcnot]
    rw [readIpv4, hnum, Option.some_bind, hnd]
    rfl

/-- Reading a hex group from its canonical rendering. -/
theorem readHexGroup_display (g : Nat) (hg : g < 65536) (rest : List Char)
    (hrest : ∀ c, rest.head? = some c → toDigit 16 c = none) :
    readNumber 16 65536 (some 4) true (natBaseChars 16 g ++ rest) = some (g, rest) :=
  readNumber_exact 16 65536 (by omega) (by omega) toDigit_sixteen_digitChar (some 4)
    true g rest hg
    (fun m hm => by
      cases hm
      refine natBaseChars_length_le 16 (by omega) g 4 (by omega) ?_
      norm_num
      omega)
    hrest

/-! ## IPv6 group-run lemmas -/

/-- Step: both the embedded-IPv4 try and the hex-group read fail, so the
run ends without consuming anything. -/
theorem readGroupsAux_succ_stuck (rem : Nat) (first : Bool) (s : List Char)
    (h : (if first then some s else expectChar ':' s) = none ∨
      ∃ s2, (if first then some s else expectChar ':' s) = some s2 ∧
        readIpv4 s2 = none ∧ readNumber 16 65536 (some 4) true s2 = none) :
    readGroupsAux (rem + 1) first s = ([], s, false) := by
  rcases h with h | ⟨s2, hsep, hv4, hhex⟩
  · simp only [readGroupsAux, h, Option.none_bind, ite_self]
  · simp only [readGroupsAux, hsep, Option.some_bind, hv4, ite_self, hhex]

/-- Step: the embedded-IPv4 try fails but a hex group is read. -/
theorem readGroupsAux_succ_hex (rem : Nat) (first : Bool) (s s2 : List Char)
    (g : Nat) (rest : List Char)
    (hsep : (if first then some s else expectChar ':' s) = some s2)
    (hv4 : readIpv4 s2 = none)
    (hhex : readNumber 16 65536 (some 4) true s2 = some (g, rest)) :
    readGroupsAux (rem + 1) first s =
      (g :: (readGroupsAux rem false rest).1,
        (readGroupsAux rem false rest).2.1,
        (readGroupsAux rem false rest).2.2) := by
  simp only [readGroupsAux, hsep, Option.some_bind, hv4, ite_self, hhex]

/-- Step: with at least two slots left, an embedded IPv4 address is read. -/
theorem readGroupsAux_succ_v4 (rem : Nat) (hrem : 1 ≤ rem) (first : Bool)
    (s s2 : List Char) (octs : Nat × Nat × Nat × Nat) (rest : List Char)
    (hsep : (if first then some s else expectChar ':' s) = some s2)
    (hv4 : readIpv4 s2 = some (octs, rest)) :
    readGroupsAux (rem + 1) first s = (v4Groups octs, rest, true) := by
  simp only [readGroupsAux, hsep, Option.some_bind, if_pos hrem, hv4]

theorem colonTail_cons (g : Nat) (gs : List Nat) :
    colonTail (g :: gs) = ':' :: (natBaseChars 16 g ++ colonTail gs) := by
  simp [colonTail]

/-- A run terminator: empty input, or a `::` (the parser may not consume a
lone separator). -/
def RunStop (rest : List Char) : Prop :=
  rest = [] ∨ ∃ r2, rest = ':' :: ':' :: r2

theorem runStop_head (rest : List Char) (h : RunStop rest) :
    rest = [] ∨ rest.head? = some ':' := by
  rcases h with rfl | ⟨r2, rfl⟩
  · exact .inl rfl
  · exact .inr rfl

/-- Reading groups from `:g₁:g₂…:gₖ` followed by a terminator consumes
exactly the groups. -/
theorem readGroupsTail (gs : List Nat) (hg : ∀ g ∈ gs, g < 65536) :
    ∀ (rem : Nat) (rest : List Char), gs.length ≤ rem → RunStop rest →
    readGroupsAux rem false (colonTail gs ++ rest) = (gs, rest, false) := by
  induction gs with
  | nil =>
    intro rem rest _ hrest
    have hnil : colonTail ([] : List Nat) ++ rest = rest := rfl
    rw [hnil]
    cases rem with
    | zero => rfl
    | succ r =>
      apply readGroupsAux_succ_stuck
      rcases hrest with rfl | ⟨r2, rfl⟩
      · exact .inl rfl
      · refine .inr ⟨':' :: r2, ?_, ?_, ?_⟩
        · rw [if_neg (by simp), expectChar_cons_self]
        · exact readIpv4_none_of_head _ (by
            intro c hc
            simp only [List.head?_cons, Option.some.injEq] at hc
            subst hc
            decide)
        · exact readNumber_none_of_head _ _ _ _ _ (by
            intro c hc
            simp only [List.head?_cons, Option.some.injEq] at hc
            subst hc
            decide)
  | cons g gs ih =>
    intro rem rest hlen hrest
    obtain ⟨r, rfl⟩ : ∃ r, rem = r + 1 :=
      ⟨rem - 1, by simp only [List.length_cons] at hlen; omega⟩
    have hgg : g < 65536 := hg g (List.mem_cons_self _ _)
    have hg2 : ∀ x ∈ gs, x < 65536 := fun x hx => hg x (List.mem_cons_of_mem _ hx)
    have htailStop : colonTail gs ++ rest = [] ∨
        (colonTail gs ++ rest).head? = some ':' := by
      cases gs with
      | nil =>
        have : colonTail ([] : List Nat) ++ rest = rest := rfl
        rw [this]
        exact runStop_head rest hrest
      | cons g2 gs2 =>
        rw [colonTail_cons]
        exact .inr rfl
    have hjoin : colonTail (g :: gs) ++ rest =
        ':' :: (natBaseChars 16 g ++ (colonTail gs ++ rest)) := by
      rw [colonTail_cons]
      simp [List.append_assoc]
    rw [hjoin]
    rw [readGroupsAux_succ_hex r false _ (natBaseChars 16 g ++ (colonTail gs ++ rest))
      g (colonTail gs ++ rest)
      (by rw [if_neg (by simp), expectChar_cons_self])
      (readIpv4_none_hexText g (colonTail gs ++ rest) htailStop)
      (readHexGroup_display g hgg (colonTail gs ++ rest) (by
        intro c hc
        rcases htailStop with he | he
        · rw [he] at hc
          exact Option.noConfusion hc
        · rw [he] at hc
          cases hc
          decide))]
    rw [ih hg2 r rest (by simp only [List.length_cons] at hlen; omega) hrest]

/-- Reading groups from `g₁:g₂…:gₖ` (no leading separator) followed by a
terminator consumes exactly the groups. -/
theorem readGroupsFirst (gs : List Nat) (hg : ∀ g ∈ gs, g < 65536)
    (rem : Nat) (rest : List Char) (hlen : gs.length ≤ rem) (hrest : RunStop rest) :
    readGroupsAux rem true (colonJoinHex gs ++ rest) = (gs, rest, false) := by
  cases gs with
  | nil =>
    have hnil : colonJoinHex ([] : List Nat) ++ rest = rest := rfl
    rw [hnil]
    cases rem with
    | zero => rfl
    | succ r =>
      apply readGroupsAux_succ_stuck
      rcases hrest with rfl | ⟨r2, rfl⟩
      · refine .inr ⟨[], if_pos rfl, ?_, ?_⟩
        · exact readIpv4_none_of_head _ (by intro c hc; exact Option.noConfusion hc)
        · exact readNumber_none_of_head _ _ _ _ _ (by
            intro c hc
            exact Option.noConfusion hc)
      · refine .inr ⟨':' :: ':' :: r2, if_pos rfl, ?_, ?_⟩
        · exact readIpv4_none_of_head _ (by
            intro c hc
            cases hc
            decide)
        · exact readNumber_none_of_head _ _ _ _ _ (by
            intro c hc
            cases hc
            decide)
  | cons g gs =>
    obtain ⟨r, rfl⟩ : ∃ r, rem = r + 1 :=
      ⟨rem - 1, by simp only [List.length_cons] at hlen; omega⟩
    have hgg : g < 65536 := hg g (List.mem_cons_self _ _)
    have hg2 : ∀ x ∈ gs, x < 65536 := fun x hx => hg x (List.mem_cons_of_mem _ hx)
    have htailStop : colonTail gs ++ rest = [] ∨
        (colonTail gs ++ rest).head? = some ':' := by
      cases gs with
      | nil =>
        have : colonTail ([] : List Nat) ++ rest = rest := rfl
        rw [this]
        exact runStop_head rest hrest
      | cons g2 gs2 =>
        rw [colonTail_cons]
        exact .inr rfl
    have hjoin : colonJoinHex (g :: gs) ++ rest =
        natBaseChars 16 g ++ (colonTail gs ++ rest) := by
      show (natBaseChars 16 g ++ colonTail gs) ++ rest = _

      simp [List.append_assoc]
    rw [hjoin]
    rw [readGroupsAux_succ_hex r true _ (natBaseChars 16 g ++ (colonTail gs ++ rest))
      g (colonTail gs ++ rest)
      (if_pos rfl)
      (readIpv4_none_hexText g (colonTail gs ++ rest) htailStop)
      (readHexGroup_display g hgg (colonTail gs ++ rest) (by
        intro c hc
        rcases htailStop with he | he
        · rw [he] at hc
          exact Option.noConfusion hc
        · rw [he] at hc
          cases hc
          decide))]
    rw [readGroupsTail gs hg2 r rest (by simp only [List.length_cons] at hlen; omega) hrest]

/-! ## Zero-run scan correctness -/

/-- `(st, ln)` indexes a run of zero segments inside `l`. -/
def ZeroRun (l : List Nat) (st ln : Nat) : Prop :=
  st + ln ≤ l.length ∧ (l.drop st).take ln = List.replicate ln 0

theorem zeroRun_nil : ZeroRun [] 0 0 := ⟨by simp, by simp⟩

theorem zeroRun_zero (l : List Nat) : ZeroRun l 0 0 := ⟨by simp, by simp⟩

theorem zeroRun_append (l : List Nat) (x : Nat) (st ln : Nat) (h : ZeroRun l st ln) :
    ZeroRun (l ++ [x]) st ln := by
  obtain ⟨hle, heq⟩ := h
  refine ⟨by simp; omega, ?_⟩
  rw [List.drop_append_of_le_length (by omega)]
  rw [List.take_append_of_le_length (by rw [List.length_drop]; omega)]
  exact heq

theorem zeroRun_extend (l : List Nat) (st ln : Nat) (h : ZeroRun l st ln)
    (hfull : st + ln = l.length) : ZeroRun (l ++ [0]) st (ln + 1) := by
  obtain ⟨hle, heq⟩ := h
  have hdl : (l.drop st).length = ln := by
    rw [List.length_drop]
    omega
  have hdrop : l.drop st = List.replicate ln 0 := by
    rw [← heq]
    exact (List.take_of_length_le (by omega)).symm
  refine ⟨by simp; omega, ?_⟩
  rw [List.drop_append_of_le_length (by omega), hdrop, ← List.replicate_succ']
  exact List.take_of_length_le (by simp)

theorem zeroRun_singleton (l : List Nat) : ZeroRun (l ++ [0]) l.length 1 := by
  refine ⟨by simp, ?_⟩
  rw [List.drop_append_of_le_length (by omega), List.drop_length]
  rfl

/-- The zero-run scan always returns a zero run (fold invariant). -/
theorem lzrFold_run (l : List Nat) :
    ∀ (p : List Nat) (longest current : Nat × Nat),
    ZeroRun p longest.1 longest.2 →
    ZeroRun p current.1 current.2 →
    (current.2 ≠ 0 → current.1 + current.2 = p.length) →
    ZeroRun (p ++ l) (l.foldl lzrStep (longest, current, p.length)).1.1
      (l.foldl lzrStep (longest, current, p.length)).1.2 := by
  induction l with
  | nil =>
    intro p longest current hl _ _
    simpa using hl
  | cons seg l ih =>
    intro p longest current hl hc hi
    rw [List.foldl_cons, List.append_cons]
    by_cases hseg : seg = 0
    · subst hseg
      by_cases hz : current.2 = 0
      · have hstep : lzrStep (longest, current, p.length) 0 =
            ((if longest.2 < 1 then (p.length, 1) else longest),
              (p.length, 1), p.length + 1) := by
          simp [lzrStep, hz]
        rw [hstep]
        have hcur2 : ZeroRun (p ++ [0]) p.length 1 := zeroRun_singleton p
        have hlon2 : ZeroRun (p ++ [0])
            (if longest.2 < 1 then (p.length, 1) else longest).1
            (if longest.2 < 1 then (p.length, 1) else longest).2 := by
          split
          · exact hcur2
          · exact zeroRun_append p 0 _ _ hl
        rw [show p.length + 1 = (p ++ [0]).length by simp]
        exact ih (p ++ [0]) _ _ hlon2 hcur2 (fun _ => by simp)
      · have hstep : lzrStep (longest, current, p.length) 0 =
            ((if longest.2 < current.2 + 1 then (current.1, current.2 + 1)
                else longest),
              (current.1, current.2 + 1), p.length + 1) := by
          simp [lzrStep, hz]
        rw [hstep]
        have hcur2 : ZeroRun (p ++ [0]) current.1 (current.2 + 1) :=
          zeroRun_extend p current.1 current.2 hc (hi hz)
        have hlon2 : ZeroRun (p ++ [0])
            (if longest.2 < current.2 + 1 then (current.1, current.2 + 1)
              else longest).1
            (if longest.2 < current.2 + 1 then (current.1, current.2 + 1)
              else longest).2 := by
          split
          · exact hcur2
          · exact zeroRun_append p 0 _ _ hl
        rw [show p.length + 1 = (p ++ [0]).length by simp]
        refine ih (p ++ [0]) _ _ hlon2 hcur2 (fun _ => ?_)
        have := hi hz
        simp only [List.length_append, List.length_singleton]
        omega
    · have hstep : lzrStep (longest, current, p.length) seg =
          (longest, (0, 0), p.length + 1) := by
        simp [lzrStep, hseg]
      rw [hstep]
      rw [show p.length + 1 = (p ++ [seg]).length by simp]
      exact ih (p ++ [seg]) _ _ (zeroRun_append p seg _ _ hl)
        (zeroRun_zero _) (fun hcon => absurd rfl hcon)

theorem longestZeroRun_run (segs : List Nat) :
    ZeroRun segs (longestZeroRun segs).1 (longestZeroRun segs).2 := by
  have h := lzrFold_run segs [] (0, 0) (0, 0) zeroRun_nil zeroRun_nil
    (fun hcon => absurd rfl hcon)
  simpa [longestZeroRun] using h

theorem zeroRun_decomp (l : List Nat) (st ln : Nat) (h : ZeroRun l st ln) :
    l = l.take st ++ List.replicate ln 0 ++ l.drop (st + ln) := by
  obtain ⟨hle, heq⟩ := h
  have h1 : l.drop st = List.replicate ln 0 ++ l.drop (st + ln) := by
    conv_lhs => rw [← List.take_append_drop ln (l.drop st)]
    rw [heq, List.drop_drop]
  conv_lhs => rw [← List.take_append_drop st l, h1]
  rw [List.append_assoc]

/-! ## IPv6 parse-of-display -/

theorem readIpv6_full8 (gs : List Nat) (hg : ∀ x ∈ gs, x < 65536)
    (hlen : gs.length = 8) : readIpv6 (colonJoinHex gs) = some (gs, []) := by
  have hhead := readGroupsFirst gs hg 8 [] (by omega) (.inl rfl)
  rw [List.append_nil] at hhead
  simp only [readIpv6, hhead]
  rw [if_pos hlen]

theorem readIpv6_eval (hgs : List Nat) (hh : ∀ x ∈ hgs, x < 65536)
    (hlen8 : hgs.length < 8) (T : List Char) (tgs : List Nat) (tb : Bool)
    (htail : readGroupsAux (8 - (hgs.length + 1)) true T = (tgs, [], tb)) :
    readIpv6 (colonJoinHex hgs ++ ':' :: ':' :: T) =
      some (hgs ++ List.replicate (8 - hgs.length - tgs.length) 0 ++ tgs, []) := by
  have hhead := readGroupsFirst hgs hh 8 (':' :: ':' :: T) (by omega) (.inr ⟨T, rfl⟩)
  simp only [readIpv6, hhead]
  rw [if_neg (by omega)]
  simp only [Bool.false_eq_true, if_false, htail]

theorem ipv6Full_of (s : List Char) (g : List Nat)
    (h : readIpv6 s = some (g, [])) : ipv6Full s = some g := by
  simp only [ipv6Full, h]

set_option maxHeartbeats 1000000 in
/-- Parsing the canonical `Display` rendering of an IPv6 address recovers
its eight segments. -/
theorem ipv6Full_display (g : List Nat) (hlen : g.length = 8)
    (hv : ∀ x ∈ g, x < 65536) : ipv6Full (ipv6Display g) = some g := by
  by_cases hmap : g.take 5 = [0, 0, 0, 0, 0] ∧ g.getD 5 0 = 65535
  · -- IPv4-mapped special case
    rcases g with _ | ⟨a0, g⟩
    · exact absurd hlen (by simp)
    rcases g with _ | ⟨a1, g⟩
    · exact absurd hlen (by simp)
    rcases g with _ | ⟨a2, g⟩
    · exact absurd hlen (by simp)
    rcases g with _ | ⟨a3, g⟩
    · exact absurd hlen (by simp)
    rcases g with _ | ⟨a4, g⟩
    · exact absurd hlen (by simp)
    rcases g with _ | ⟨a5, g⟩
    · exact absurd hlen (by simp)
    rcases g with _ | ⟨a6, g⟩
    · exact absurd hlen (by simp)
    rcases g with _ | ⟨a7, g⟩
    · exact absurd hlen (by simp)
    rcases g with _ | ⟨a8, g⟩
    swap
    · exfalso
      simp at hlen
    obtain ⟨h5, hg5⟩ := hmap
    simp only [List.take, List.cons.injEq, and_true] at h5
    obtain ⟨rfl, rfl, rfl, rfl, rfl, -⟩ := h5
    simp only [List.getD, List.get?, Option.getD_some] at hg5
    subst hg5
    have ha6 : a6 < 65536 := hv a6 (by simp)
    have ha7 : a7 < 65536 := hv a7 (by simp)
    have hdisp : ipv6Display [0, 0, 0, 0, 0, 65535, a6, a7] =
        colonJoinHex [] ++ ':' :: ':' :: (natBaseChars 16 65535 ++ ':' ::
          ipv4Display (a6 / 256, a6 % 256, a7 / 256, a7 % 256)) := by
      rw [ipv6Display, if_pos ⟨rfl, rfl⟩]
      rw [show (natBaseChars 16 65535 : List Char) = ['f', 'f', 'f', 'f'] by decide]
      rfl
    have hv4 := readIpv4_display (a6 / 256) (a6 % 256) (a7 / 256) (a7 % 256)
      (by omega) (by omega) (by omega) (by omega) []
      (fun c hc => Option.noConfusion hc)
    rw [List.append_nil] at hv4
    have htail2 : readGroupsAux (5 + 1) false
        (':' :: ipv4Display (a6 / 256, a6 % 256, a7 / 256, a7 % 256)) =
        (v4Groups (a6 / 256, a6 % 256, a7 / 256, a7 % 256), [], true) :=
      readGroupsAux_succ_v4 5 (by omega) false
        (':' :: ipv4Display (a6 / 256, a6 % 256, a7 / 256, a7 % 256))
        (ipv4Display (a6 / 256, a6 % 256, a7 / 256, a7 % 256))
        (a6 / 256, a6 % 256, a7 / 256, a7 % 256) []
        (by rw [if_neg Bool.false_ne_true, expectChar_cons_self]) hv4
    have htail1 : readGroupsAux (6 + 1) true (natBaseChars 16 65535 ++ ':' ::
        ipv4Display (a6 / 256, a6 % 256, a7 / 256, a7 % 256)) =
        (65535 :: v4Groups (a6 / 256, a6 % 256, a7 / 256, a7 % 256), [], true) := by
      rw [readGroupsAux_succ_hex 6 true
        (natBaseChars 16 65535 ++ ':' ::
          ipv4Display (a6 / 256, a6 % 256, a7 / 256, a7 % 256))
        (natBaseChars 16 65535 ++ ':' ::
          ipv4Display (a6 / 256, a6 % 256, a7 / 256, a7 % 256))
        65535 (':' :: ipv4Display (a6 / 256, a6 % 256, a7 / 256, a7 % 256))
        (if_pos rfl)
        (readIpv4_none_hexText 65535 _ (.inr rfl))
        (readHexGroup_display 65535 (by omega) _ (fun c hc => by cases hc; decide))]
      rw [show (6 : Nat) = 5 + 1 from rfl, htail2]
    have hfin := readIpv6_eval [] (by simp) (by simp)
      (natBaseChars 16 65535 ++ ':' ::
        ipv4Display (a6 / 256, a6 % 256, a7 / 256, a7 % 256))
      (65535 :: v4Groups (a6 / 256, a6 % 256, a7 / 256, a7 % 256)) true htail1
    rw [hdisp, ipv6Full_of _ _ hfin]
    have h6 : a6 / 256 * 256 + a6 % 256 = a6 := by omega
    have h7 : a7 / 256 * 256 + a7 % 256 = a7 := by omega
    simp only [v4Groups, h6, h7]
    rfl
  · by_cases hz : 1 < (longestZeroRun g).2
    · -- compressed form
      have hrun := longestZeroRun_run g
      have hdec := zeroRun_decomp g _ _ hrun
      have hle8 : (longestZeroRun g).1 + (longestZeroRun g).2 ≤ 8 := hlen ▸ hrun.1
      have hdisp : ipv6Display g =
          colonJoinHex (g.take (longestZeroRun g).1) ++ ':' :: ':' ::
            colonJoinHex (g.drop ((longestZeroRun g).1 + (longestZeroRun g).2)) := by
        rw [ipv6Display, if_neg hmap, if_pos hz]
      have hlt : (g.take (longestZeroRun g).1).length = (longestZeroRun g).1 := by
        rw [List.length_take, hlen]
        omega
      have hld : (g.drop ((longestZeroRun g).1 + (longestZeroRun g).2)).length =
          8 - ((longestZeroRun g).1 + (longestZeroRun g).2) := by
        rw [List.length_drop, hlen]
      have htail := readGroupsFirst
        (g.drop ((longestZeroRun g).1 + (longestZeroRun g).2))
        (fun x hx => hv x (List.drop_subset _ _ hx))
        (8 - ((g.take (longestZeroRun g).1).length + 1)) [] (by
          rw [hld, hlt]
          omega)
        (.inl rfl)
      rw [List.append_nil] at htail
      have hfin := readIpv6_eval (g.take (longestZeroRun g).1)
        (fun x hx => hv x (List.take_subset _ _ hx))
        (by rw [hlt]; omega) _ _ _ htail
      rw [hdisp, ipv6Full_of _ _ hfin]
      congr 1
      have hcount : 8 - (g.take (longestZeroRun g).1).length -
          (g.drop ((longestZeroRun g).1 + (longestZeroRun g).2)).length =
          (longestZeroRun g).2 := by
        rw [hlt, hld]
        omega
      rw [hcount]
      exact hdec.symm
    · have hdisp : ipv6Display g = colonJoinHex g := by
        rw [ipv6Display, if_neg hmap, if_neg hz]
      rw [hdisp]
      exact ipv6Full_of _ _ (readIpv6_full8 g hv hlen)

/-! ## Digit decoding bounds -/

theorem toDigit_lt (radix : Nat) (c : Char) (v : Nat)
    (h : toDigit radix c = some v) : v < radix := by
  simp only [toDigit] at h
  split at h
  · split at h
    · rename_i hlt
      cases h
      exact hlt
    · exact absurd h (by simp)
  · exact absurd h (by simp)

theorem rustParseUInt_bound (B : Nat) (s : List Char) (v : Nat)
    (h : rustParseUInt B s = some v) : v < B := by
  simp only [rustParseUInt] at h
  split at h
  · exact absurd h (by simp)
  · split at h
    · split at h
      · rename_i hlt
        cases h
        exact hlt
      · exact absurd h (by simp)
    · exact absurd h (by simp)

/-! ## NodeId lemmas -/

theorem nodeIdParse_wf (s : List Char) (n : NodeId) (h : nodeIdParse s = some n) :
    n.nibbles.length = 66 ∧ ∀ v ∈ n.nibbles, v < 16 := by
  simp only [nodeIdParse] at h
  split at h
  · rename_i hc
    cases h
    obtain ⟨hlen, hall⟩ := hc
    constructor
    · simp [hlen]
    · intro v hv
      simp only [List.mem_map] at hv
      obtain ⟨c, hc2, rfl⟩ := hv
      have hhex := List.all_eq_true.mp hall c hc2
      rw [isHexDigitChar] at hhex
      obtain ⟨w, hw⟩ := Option.isSome_iff_exists.mp hhex
      rw [hw]
      simpa using toDigit_lt 16 c w hw
  · exact absurd h (by simp)

theorem nodeIdDisplay_no_at (n : NodeId) (hv : ∀ v ∈ n.nibbles, v < 16) :
    '@' ∉ nodeIdDisplay n := by
  rw [nodeIdDisplay]
  intro hmem
  simp only [List.mem_map] at hmem
  obtain ⟨v, hv2, hc⟩ := hmem
  exact (digitChar_not_special v (hv v hv2)).2.2.1 hc

theorem nodeIdParse_display (n : NodeId) (h1 : n.nibbles.length = 66)
    (h2 : ∀ v ∈ n.nibbles, v < 16) : nodeIdParse (nodeIdDisplay n) = some n := by
  have hcond : (nodeIdDisplay n).length = 66 ∧
      (nodeIdDisplay n).all isHexDigitChar = true := by
    constructor
    · simp [nodeIdDisplay, h1]
    · rw [List.all_eq_true]
      intro c hc
      rw [nodeIdDisplay] at hc
      simp only [List.mem_map] at hc
      obtain ⟨v, hv, rfl⟩ := hc
      rw [isHexDigitChar, toDigit_sixteen_digitChar v (h2 v hv)]
      rfl
  rw [nodeIdParse, if_pos hcond]
  congr 1
  cases n with
  | mk nib =>
    simp only [nodeIdDisplay, List.map_map, NodeId.mk.injEq]
    have hmap : ∀ v ∈ nib, ((fun c => (toDigit 16 c).getD 0) ∘ digitChar) v = id v := by
      intro v hv
      simp only [Function.comp_apply, id_eq]
      rw [toDigit_sixteen_digitChar v (h2 v hv)]
      rfl
    rw [List.map_congr_left hmap, List.map_id]

/-! ## First/last index lemmas -/

theorem firstIdx_none (c : Char) (s : List Char) (h : ∀ x ∈ s, x ≠ c) :
    firstIdx c s = none := by
  induction s with
  | nil => rfl
  | cons x xs ih =>
    rw [firstIdx, if_neg (h x (List.mem_cons_self _ _)),
      ih (fun y hy => h y (List.mem_cons_of_mem _ hy))]
    rfl

theorem firstIdx_append (c : Char) (pre post : List Char) (hpre : c ∉ pre) :
    firstIdx c (pre ++ c :: post) = some pre.length := by
  induction pre with
  | nil =>
    rw [List.nil_append, firstIdx, if_pos rfl]
    rfl
  | cons x xs ih =>
    have hx : x ≠ c := fun heq => hpre (heq ▸ List.mem_cons_self _ _)
    rw [List.cons_append, firstIdx, if_neg hx,
      ih (fun hm => hpre (List.mem_cons_of_mem _ hm))]
    rfl

theorem firstIdx_some (c : Char) (s : List Char) :
    ∀ i, firstIdx c s = some i →
    ∃ pre post, s = pre ++ c :: post ∧ pre.length = i ∧ c ∉ pre := by
  induction s with
  | nil =>
    intro i h
    exact absurd h (by rw [firstIdx]; simp)
  | cons x xs ih =>
    intro i h
    rw [firstIdx] at h
    by_cases hx : x = c
    · rw [if_pos hx] at h
      cases h
      exact ⟨[], xs, by rw [hx]; rfl, rfl, by simp⟩
    · rw [if_neg hx] at h
      rcases hfi : firstIdx c xs with _ | j
      · rw [hfi] at h
        exact absurd h (by simp)
      · rw [hfi, show (some j).map (· + 1) = some (j + 1) from rfl] at h
        cases h
        obtain ⟨pre, post, rfl, hlen, hnot⟩ := ih j hfi
        refine ⟨x :: pre, post, rfl, by simp only [List.length_cons]; omega, ?_⟩
        simp only [List.mem_cons, not_or]
        exact ⟨fun heq => hx heq.symm, hnot⟩

theorem lastIdx_eq_none_imp (c : Char) (s : List Char)
    (h : lastIdx c s = none) : ∀ y ∈ s, y ≠ c := by
  induction s with
  | nil => simp
  | cons x xs ih =>
    rw [lastIdx] at h
    rcases hlast : lastIdx c xs with _ | j
    · rw [hlast] at h
      intro y hy
      rcases List.mem_cons.mp hy with rfl | hy2
      · intro hc
        rw [if_pos hc] at h
        exact Option.noConfusion h
      · exact ih hlast y hy2
    · rw [hlast] at h
      exact absurd h (by simp)

theorem lastIdx_none (c : Char) (s : List Char) (h : ∀ x ∈ s, x ≠ c) :
    lastIdx c s = none := by
  induction s with
  | nil => rfl
  | cons x xs ih =>
    rw [lastIdx, ih (fun y hy => h y (List.mem_cons_of_mem _ hy)),
      if_neg (h x (List.mem_cons_self _ _))]

theorem lastIdx_append (c : Char) (xs ys : List Char) (hys : ∀ y ∈ ys, y ≠ c) :
    lastIdx c (xs ++ c :: ys) = some xs.length := by
  induction xs with
  | nil =>
    rw [List.nil_append, lastIdx, lastIdx_none c ys hys, if_pos rfl]
    rfl
  | cons x xs ih =>
    rw [List.cons_append, lastIdx, ih]
    rfl

theorem lastIdx_some (c : Char) (s : List Char) :
    ∀ i, lastIdx c s = some i →
    ∃ pre post, s = pre ++ c :: post ∧ pre.length = i ∧ ∀ y ∈ post, y ≠ c := by
  induction s with
  | nil =>
    intro i h
    exact absurd h (by rw [lastIdx]; simp)
  | cons x xs ih =>
    intro i h
    rw [lastIdx] at h
    rcases hlast : lastIdx c xs with _ | j
    · simp only [hlast] at h
      by_cases hx : x = c
      · rw [if_pos hx] at h
        cases h
        exact ⟨[], xs, by rw [hx]; rfl, rfl, lastIdx_eq_none_imp c xs hlast⟩
      · rw [if_neg hx] at h
        exact absurd h (by simp)
    · simp only [hlast] at h
      cases h
      obtain ⟨pre, post, rfl, hlen, hpost⟩ := ih j hlast
      exact ⟨x :: pre, post, rfl, by simp [hlen], hpost⟩

/-! ## hostEndPort step and soundness lemmas -/

theorem hostEndPort_br (hp : List Char)
    (h : (hp.head? == some '[' && hp.getLast? == some ']') = true) :
    P2PAddress.hostEndPort hp = .ok (hp.length, LN_DEFAULT_PORT) := by
  simp only [P2PAddress.hostEndPort, h]

theorem hostEndPort_col_ok (hp : List Char) (pos p : Nat)
    (hbr : (hp.head? == some '[' && hp.getLast? == some ']') = false)
    (hcol : lastIdx ':' hp = some pos)
    (hport : rustParseUInt 65536 (hp.drop (pos + 1)) = some p) :
    P2PAddress.hostEndPort hp = .ok (pos, p) := by
  simp only [P2PAddress.hostEndPort, hbr, hcol, hport]

theorem hostEndPort_col_err (hp : List Char) (pos : Nat)
    (hbr : (hp.head? == some '[' && hp.getLast? == some ']') = false)
    (hcol : lastIdx ':' hp = some pos)
    (hport : rustParseUInt 65536 (hp.drop (pos + 1)) = none) :
    P2PAddress.hostEndPort hp = .error .invalidPortNumber := by
  simp only [P2PAddress.hostEndPort, hbr, hcol, hport]

theorem hostEndPort_nocol (hp : List Char)
    (hbr : (hp.head? == some '[' && hp.getLast? == some ']') = false)
    (hcol : lastIdx ':' hp = none) :
    P2PAddress.hostEndPort hp = .ok (hp.length, LN_DEFAULT_PORT) := by
  simp only [P2PAddress.hostEndPort, hbr, hcol]

theorem hostEndPort_sound (hp : List Char) (hEnd port : Nat)
    (h : P2PAddress.hostEndPort hp = .ok (hEnd, port)) : port < 65536 := by
  simp only [P2PAddress.hostEndPort] at h
  split at h
  · cases h
    decide
  · split at h
    · cases h
      rename_i heq
      exact rustParseUInt_bound _ _ _ heq
    · exact absurd h (by simp)
  · cases h
    decide

/-! ## Full-parse helpers and soundness -/

theorem ipv4Full_display (a b c d : Nat)
    (ha : a < 256) (hb : b < 256) (hc : c < 256) (hd : d < 256) :
    ipv4Full (ipv4Display (a, b, c, d)) = some (a, b, c, d) := by
  have h := readIpv4_display a b c d ha hb hc hd []
    (fun ch hch => Option.noConfusion hch)
  rw [List.append_nil] at h
  simp only [ipv4Full, h]

theorem ipv4Full_none (s : List Char) (h : readIpv4 s = none) :
    ipv4Full s = none := by
  simp only [ipv4Full, h]

theorem ipv4Full_sound (s : List Char) (o : Nat × Nat × Nat × Nat)
    (h : ipv4Full s = some o) :
    o.1 < 256 ∧ o.2.1 < 256 ∧ o.2.2.1 < 256 ∧ o.2.2.2 < 256 := by
  simp only [ipv4Full] at h
  split at h
  · rename_i heq
    cases h
    exact readIpv4_bound _ _ _ heq
  · exact absurd h (by simp)

theorem readGroupsAux_sound : ∀ (rem : Nat) (first : Bool) (s : List Char),
    (readGroupsAux rem first s).1.length ≤ rem ∧
    ∀ g ∈ (readGroupsAux rem first s).1, g < 65536 := by
  intro rem
  induction rem with
  | zero =>
    intro first s
    exact ⟨by simp [readGroupsAux], by simp [readGroupsAux]⟩
  | succ rem ih =>
    intro first s
    simp only [readGroupsAux]
    split
    · rename_i octs rest heq
      constructor
      · by_cases hr : 1 ≤ rem
        · simp only [v4Groups, List.length_cons, List.length_nil]
          omega
        · rw [if_neg hr] at heq
          exact absurd heq (by simp)
      · intro g hg
        by_cases hr : 1 ≤ rem
        · rw [if_pos hr] at heq
          rcases hsep : (if first = true then some s else expectChar ':' s) with _ | s2
          · rw [hsep] at heq
            exact absurd heq (by simp)
          · rw [hsep] at heq
            rw [Option.some_bind] at heq
            have hb := readIpv4_bound s2 octs rest heq
            simp only [v4Groups, List.mem_cons, List.not_mem_nil, or_false] at hg
            rcases hg with rfl | rfl
            · omega
            · omega
        · rw [if_neg hr] at heq
          exact absurd heq (by simp)
    · split
      · rename_i g rest heq
        have hr := ih false rest
        constructor
        · simp only [List.length_cons]
          omega
        · intro x hx
          rcases List.mem_cons.mp hx with rfl | hx2
          · rcases hsep : (if first = true then some s else expectChar ':' s) with _ | s2
            · rw [hsep] at heq
              exact absurd heq (by simp)
            · rw [hsep] at heq
              rw [Option.some_bind] at heq
              exact readNumber_bound _ _ _ _ _ _ _ heq
          · exact hr.2 x hx2
      · exact ⟨by simp, by simp⟩

theorem readIpv6_sound (s : List Char) (g : List Nat) (r : List Char)
    (h : readIpv6 s = some (g, r)) :
    g.length = 8 ∧ ∀ x ∈ g, x < 65536 := by
  simp only [readIpv6] at h
  split at h
  · rename_i hlen8
    cases h
    exact ⟨hlen8, (readGroupsAux_sound 8 true s).2⟩
  · rename_i hne
    split at h
    · exact absurd h (by simp)
    · split at h
      · rename_i rest2 heq
        cases h
        have hh := readGroupsAux_sound 8 true s
        have ht := readGroupsAux_sound
          (8 - ((readGroupsAux 8 true s).1.length + 1)) true rest2
        constructor
        · simp only [List.length_append, List.length_replicate]
          have h1 := hh.1
          have h2 := ht.1
          omega
        · intro x hx
          rcases List.mem_append.mp hx with hx | hx
          · rcases List.mem_append.mp hx with hx | hx
            · exact hh.2 x hx
            · rw [List.eq_of_mem_replicate hx]
              omega
          · exact ht.2 x hx
      · exact absurd h (by simp)

theorem ipv6Full_sound (s : List Char) (g : List Nat) (h : ipv6Full s = some g) :
    g.length = 8 ∧ ∀ x ∈ g, x < 65536 := by
  simp only [ipv6Full] at h
  split at h
  · rename_i heq
    cases h
    exact readIpv6_sound _ _ _ heq
  · exact absurd h (by simp)

/-! ## Display-side helper lemmas -/

theorem getLast?_append_right {l l2 : List Char} (h : l2 ≠ []) :
    (l ++ l2).getLast? = l2.getLast? := by
  rw [List.getLast?_append]
  obtain ⟨a, ha⟩ := Option.isSome_iff_exists.mp (List.getLast?_isSome.mpr h)
  rw [ha]
  rfl

theorem natBaseChars_getLast (b : Nat) (hb : 2 ≤ b) (n : Nat) :
    ∃ v, v < b ∧ (natBaseChars b n).getLast? = some (digitChar v) := by
  by_cases h : n < b ∨ b ≤ 1
  · rw [natBaseChars_base b n h]
    exact ⟨n, by omega, rfl⟩
  · rw [natBaseChars_step b n h]
    exact ⟨n % b, Nat.mod_lt _ (by omega), List.getLast?_concat _⟩

theorem digits_ne_colon (n : Nat) : ∀ y ∈ natBaseChars 10 n, y ≠ ':' := by
  intro y hy
  obtain ⟨v, hv, rfl⟩ := mem_natBaseChars 10 n (by omega) y hy
  exact (digitChar_not_special v (by omega)).2.1

/-- A `host:port` rendering never passes the whole-bracket test: its last
character is a port digit. -/
theorem brCond_false_digits (X : List Char) (n : Nat) :
    ((X ++ ':' :: natBaseChars 10 n).head? == some '[' &&
      (X ++ ':' :: natBaseChars 10 n).getLast? == some ']') = false := by
  obtain ⟨v, hv, hlast⟩ := natBaseChars_getLast 10 (by omega) n
  have h2 : (X ++ ':' :: natBaseChars 10 n).getLast? = some (digitChar v) := by
    rw [List.append_cons, getLast?_append_right (natBaseChars_ne_nil 10 n), hlast]
  rw [h2]
  have h3 : (some (digitChar v) == some ']') = false := by
    rw [beq_eq_false_iff_ne]
    intro hc
    exact (digitChar_not_special v (by omega)).2.2.2.2.1 (Option.some.inj hc)
  rw [h3, Bool.and_false]

theorem drop_after_sep (X ds : List Char) (c : Char) :
    (X ++ c :: ds).drop (X.length + 1) = ds := by
  rw [List.append_cons]
  have h : (X ++ [c]).length = X.length + 1 := by simp
  rw [← h, List.drop_left]

/-! ## Well-formedness of parsed addresses -/

/-- Node-identity well-formedness: 66 hex-digit values. -/
def NodeIdWF (n : NodeId) : Prop :=
  n.nibbles.length = 66 ∧ ∀ v ∈ n.nibbles, v < 16

/-- Host well-formedness, as established by the parser: IPv4 octets are
bytes, IPv6 has eight 16-bit groups, and a hostname is a string that failed
IPv4 parsing and is not fully bracketed. -/
def HostWF : Host → Prop
  | .ip (.v4 o) => o.1 < 256 ∧ o.2.1 < 256 ∧ o.2.2.1 < 256 ∧ o.2.2.2 < 256
  | .ip (.v6 g) => g.length = 8 ∧ ∀ x ∈ g, x < 65536
  | .hostname h => ipv4Full h = none ∧
      (h.head? == some '[' && h.getLast? == some ']') = false

/-- Address well-formedness. -/
def AddrWF (a : P2PAddress) : Prop :=
  NodeIdWF a.node_id ∧ HostWF a.host ∧ a.port < 65536

/-! ## Evaluating `parse_raw` on a rendered address -/

/-- On input `⟨identity-hex⟩@hp` the parser finds the `@` at index 66,
recovers the identity, and continues on `hp`. -/
theorem parse_raw_display_steps (nid : NodeId) (h1 : nid.nibbles.length = 66)
    (h2 : ∀ v ∈ nid.nibbles, v < 16) (hp : List Char) :
    P2PAddress.parse_raw (nodeIdDisplay nid ++ '@' :: hp) =
      (match P2PAddress.hostEndPort hp with
       | .error e => .error e
       | .ok (host_end, port) =>
         match ipv4Full (hp.take host_end) with
         | some ip => .ok (nid, .ip (.v4 ip), port)
         | none =>
           if (hp.take host_end).head? == some '[' &&
               (hp.take host_end).getLast? == some ']' then
             match ipv6Full ((hp.drop 1).take ((hp.take host_end).length - 1 - 1)) with
             | some ip6 => .ok (nid, .ip (.v6 ip6), port)
             | none => .error .invalidIpv6
           else .ok (nid, .hostname ((nodeIdDisplay nid).length + 1)
             ((nodeIdDisplay nid).length + 1 + host_end), port)) := by
  have hfi := firstIdx_append '@' (nodeIdDisplay nid) hp (nodeIdDisplay_no_at nid h2)
  have htake : (nodeIdDisplay nid ++ '@' :: hp).take (nodeIdDisplay nid).length =
      nodeIdDisplay nid := List.take_left _ _
  have hdrop : (nodeIdDisplay nid ++ '@' :: hp).drop
      ((nodeIdDisplay nid).length + 1) = hp := drop_after_sep _ _ _
  have hnid := nodeIdParse_display nid h1 h2
  simp only [P2PAddress.parse_raw, hfi, htake, hnid, hdrop]

/-- Inversion of a successful `parse_raw`. -/
theorem parse_raw_ok (s : List Char) (nid : NodeId) (ihp : IpOrHostnamePos)
    (port : Nat) (h : P2PAddress.parse_raw s = .ok (nid, ihp, port)) :
    ∃ at_pos host_end,
      firstIdx '@' s = some at_pos ∧
      nodeIdParse (s.take at_pos) = some nid ∧
      P2PAddress.hostEndPort (s.drop (at_pos + 1)) = .ok (host_end, port) ∧
      (match ihp with
       | .ip (.v4 o) => ipv4Full ((s.drop (at_pos + 1)).take host_end) = some o
       | .ip (.v6 g) => ipv6Full (((s.drop (at_pos + 1)).drop 1).take
           (((s.drop (at_pos + 1)).take host_end).length - 1 - 1)) = some g
       | .hostname b e => b = at_pos + 1 ∧ e = at_pos + 1 + host_end ∧
           ipv4Full ((s.drop (at_pos + 1)).take host_end) = none ∧
           (((s.drop (at_pos + 1)).take host_end).head? == some '[' &&
            ((s.drop (at_pos + 1)).take host_end).getLast? == some ']') = false) := by
  simp only [P2PAddress.parse_raw] at h
  split at h
  · exact absurd h (by simp)
  · rename_i at_pos hfi
    split at h
    · exact absurd h (by simp)
    · rename_i node_id hnid
      split at h
      · exact absurd h (by simp)
      · rename_i host_end port2 hhep
        split at h
        · rename_i ip hv4
          cases h
          exact ⟨at_pos, host_end, hfi, hnid, hhep, hv4⟩
        · rename_i hv4
          split at h
          · rename_i hbr
            split at h
            · rename_i ip6 hv6
              cases h
              exact ⟨at_pos, host_end, hfi, hnid, hhep, hv6⟩
            · exact absurd h (by simp)
          · rename_i hbr
            cases h
            exact ⟨at_pos, host_end, hfi, hnid, hhep, rfl, rfl, hv4,
              Bool.eq_false_iff.mpr hbr⟩

/-- Every successfully parsed address is well formed. -/
theorem internalParse_wf (s : List Char) (a : P2PAddress)
    (h : P2PAddress.internalParse s = .ok a) : AddrWF a := by
  simp only [P2PAddress.internalParse] at h
  split at h
  · exact absurd h (by simp)
  · rename_i node_id b e port heq
    cases h
    obtain ⟨at_pos, host_end, hfi, hnid, hhep, hmatch⟩ :=
      parse_raw_ok s node_id (.hostname b e) port heq
    obtain ⟨rfl, rfl, hv4, hbr⟩ := hmatch
    refine ⟨nodeIdParse_wf _ _ hnid, ?_, hostEndPort_sound _ _ _ hhep⟩
    show HostWF (.hostname ((s.drop (at_pos + 1)).take
      (at_pos + 1 + host_end - (at_pos + 1))))
    rw [show at_pos + 1 + host_end - (at_pos + 1) = host_end by omega]
    exact ⟨hv4, hbr⟩
  · rename_i node_id ipa port heq
    cases h
    obtain ⟨at_pos, host_end, hfi, hnid, hhep, hmatch⟩ :=
      parse_raw_ok s node_id (.ip ipa) port heq
    refine ⟨nodeIdParse_wf _ _ hnid, ?_, hostEndPort_sound _ _ _ hhep⟩
    cases ipa with
    | v4 o => exact ipv4Full_sound _ _ hmatch
    | v6 g => exact ipv6Full_sound _ _ hmatch

/-- Re-parsing the `Display` rendering of a well-formed address yields the
same value. -/
theorem internalParse_display (a : P2PAddress) (hwf : AddrWF a) :
    P2PAddress.internalParse (P2PAddress.display a) = .ok a := by
  obtain ⟨nid, host, port⟩ := a
  obtain ⟨⟨h1, h2⟩, hhost, hport⟩ := hwf
  cases host with
  | hostname hname =>
    obtain ⟨hv4none, hbrfalse⟩ := hhost
    have hdisp : P2PAddress.display ⟨nid, .hostname hname, port⟩ =
        nodeIdDisplay nid ++ '@' :: (hname ++ ':' :: natBaseChars 10 port) := rfl
    have hHEP : P2PAddress.hostEndPort (hname ++ ':' :: natBaseChars 10 port) =
        .ok (hname.length, port) :=
      hostEndPort_col_ok _ hname.length port (brCond_false_digits hname port)
        (lastIdx_append ':' hname _ (digits_ne_colon port))
        (by rw [drop_after_sep]
            exact rustParseUInt_natBaseChars 65536 port hport)
    have htk : (hname ++ ':' :: natBaseChars 10 port).take hname.length = hname :=
      List.take_left _ _
    have hpr : P2PAddress.parse_raw
        (P2PAddress.display ⟨nid, .hostname hname, port⟩) =
        .ok (nid, .hostname ((nodeIdDisplay nid).length + 1)
          ((nodeIdDisplay nid).length + 1 + hname.length), port) := by
      rw [hdisp, parse_raw_display_steps nid h1 h2]
      simp only [hHEP, htk, hv4none, hbrfalse, Bool.false_eq_true, if_false]
    simp only [P2PAddress.internalParse, hpr]
    have hsub : ((P2PAddress.display ⟨nid, .hostname hname, port⟩).drop
        ((nodeIdDisplay nid).length + 1)).take
        ((nodeIdDisplay nid).length + 1 + hname.length -
          ((nodeIdDisplay nid).length + 1)) = hname := by
      rw [hdisp, drop_after_sep]
      rw [show (nodeIdDisplay nid).length + 1 + hname.length -
        ((nodeIdDisplay nid).length + 1) = hname.length by omega]
      exact htk
    rw [hsub]
  | ip ipa =>
    cases ipa with
    | v4 o =>
      obtain ⟨ha, hb, hc, hd⟩ := hhost
      have hdisp : P2PAddress.display ⟨nid, .ip (.v4 o), port⟩ =
          nodeIdDisplay nid ++ '@' ::
            (ipv4Display o ++ ':' :: natBaseChars 10 port) := rfl
      have hHEP : P2PAddress.hostEndPort
          (ipv4Display o ++ ':' :: natBaseChars 10 port) =
          .ok ((ipv4Display o).length, port) :=
        hostEndPort_col_ok _ _ port (brCond_false_digits (ipv4Display o) port)
          (lastIdx_append ':' (ipv4Display o) _ (digits_ne_colon port))
          (by rw [drop_after_sep]
              exact rustParseUInt_natBaseChars 65536 port hport)
      have htk : (ipv4Display o ++ ':' :: natBaseChars 10 port).take
          (ipv4Display o).length = ipv4Display o := List.take_left _ _
      have hv4 : ipv4Full (ipv4Display o) = some o :=
        ipv4Full_display o.1 o.2.1 o.2.2.1 o.2.2.2 ha hb hc hd
      have hpr : P2PAddress.parse_raw
          (P2PAddress.display ⟨nid, .ip (.v4 o), port⟩) =
          .ok (nid, .ip (.v4 o), port) := by
        rw [hdisp, parse_raw_display_steps nid h1 h2]
        simp only [hHEP, htk, hv4]
      simp only [P2PAddress.internalParse, hpr]
    | v6 g =>
      obtain ⟨hlen, hvals⟩ := hhost
      have hdisp : P2PAddress.display ⟨nid, .ip (.v6 g), port⟩ =
          nodeIdDisplay nid ++ '@' ::
            (('[' :: ipv6Display g ++ [']']) ++ ':' :: natBaseChars 10 port) := by
        show nodeIdDisplay nid ++ '@' ::
          ('[' :: ipv6Display g ++ ']' :: ':' :: natBaseChars 10 port) = _
        simp [List.append_assoc]
      have hHEP : P2PAddress.hostEndPort
          (('[' :: ipv6Display g ++ [']']) ++ ':' :: natBaseChars 10 port) =
          .ok (('[' :: ipv6Display g ++ [']']).length, port) :=
        hostEndPort_col_ok _ _ port
          (brCond_false_digits ('[' :: ipv6Display g ++ [']']) port)
          (lastIdx_append ':' ('[' :: ipv6Display g ++ [']']) _ (digits_ne_colon port))
          (by rw [drop_after_sep]
              exact rustParseUInt_natBaseChars 65536 port hport)
      have htk : (('[' :: ipv6Display g ++ [']']) ++ ':' ::
          natBaseChars 10 port).take ('[' :: ipv6Display g ++ [']']).length =
          '[' :: ipv6Display g ++ [']'] := List.take_left _ _
      have hv4n : ipv4Full ('[' :: ipv6Display g ++ [']']) = none :=
        ipv4Full_none _ (readIpv4_none_of_head _ (fun c hc => by
          have h3 : some '[' = some c := hc
          injection h3 with h4
          subst h4
          decide))
      have hbrt : (('[' :: ipv6Display g ++ [']']).head? == some '[' &&
          ('[' :: ipv6Display g ++ [']']).getLast? == some ']') = true := by
        have hh : ('[' :: ipv6Display g ++ [']']).head? = some '[' := rfl
        have hl : ('[' :: ipv6Display g ++ [']']).getLast? = some ']' :=
          List.getLast?_concat ('[' :: ipv6Display g)
        rw [hh, hl]
        rfl
      have hXlen : ('[' :: ipv6Display g ++ [']']).length =
          (ipv6Display g).length + 2 := by
        simp
      have hslice : ((('[' :: ipv6Display g ++ [']']) ++ ':' ::
          natBaseChars 10 port).drop 1).take
          (('[' :: ipv6Display g ++ [']']).length - 1 - 1) = ipv6Display g := by
        have hX : ('[' :: ipv6Display g ++ [']']) ++ ':' :: natBaseChars 10 port =
            '[' :: (ipv6Display g ++ ']' :: ':' :: natBaseChars 10 port) := by
          simp [List.append_assoc]
        rw [hX]
        show (ipv6Display g ++ ']' :: ':' :: natBaseChars 10 port).take
          (('[' :: ipv6Display g ++ [']']).length - 1 - 1) = ipv6Display g
        rw [hXlen, show (ipv6Display g).length + 2 - 1 - 1 =
          (ipv6Display g).length by omega]
        exact List.take_left _ _
      have hpr : P2PAddress.parse_raw
          (P2PAddress.display ⟨nid, .ip (.v6 g), port⟩) =
          .ok (nid, .ip (.v6 g), port) := by
        rw [hdisp, parse_raw_display_steps nid h1 h2]
        simp only [hHEP, htk, hv4n, hbrt, if_true, hslice,
          ipv6Full_display g hlen hvals]
      simp only [P2PAddress.internalParse, hpr]

/-! ### P2PAddress claims -/

/-- **C1.** `P2PAddress` parsing follows the specified ordered steps: without
an `@` it fails with `MissingAtSymbol`; otherwise the text before the first
`@` is the identity and the text after it the host-port; a host-port wrapped
in `[`…`]` is taken whole as the host with default port 9735; otherwise the
text after the last `:` must parse as a 16-bit port (failure being
`InvalidPortNumber`) with the host ending there; with no `:` the whole
host-port is the host and the port defaults to 9735. -/
theorem p2p_parse_steps :
    (∀ s : List Char, (∀ c ∈ s, c ≠ '@') →
      P2PAddress.parse_raw s = .error .missingAtSymbol) ∧
    (∀ s i, firstIdx '@' s = some i →
      ∃ pre post, s = pre ++ '@' :: post ∧ pre.length = i ∧ '@' ∉ pre ∧
        s.take i = pre ∧ s.drop (i + 1) = post) ∧
    (∀ s nid ihp port, P2PAddress.parse_raw s = .ok (nid, ihp, port) →
      ∃ at_pos host_end, firstIdx '@' s = some at_pos ∧
        nodeIdParse (s.take at_pos) = some nid ∧
        P2PAddress.hostEndPort (s.drop (at_pos + 1)) = .ok (host_end, port)) ∧
    (∀ hp : List Char,
      (hp.head? == some '[' && hp.getLast? == some ']') = true →
      P2PAddress.hostEndPort hp = .ok (hp.length, 9735)) ∧
    (∀ hp pos, (hp.head? == some '[' && hp.getLast? == some ']') = false →
      lastIdx ':' hp = some pos →
      (∃ pre post, hp = pre ++ ':' :: post ∧ pre.length = pos ∧
        (∀ y ∈ post, y ≠ ':') ∧ hp.take pos = pre ∧ hp.drop (pos + 1) = post) ∧
      ((∃ p, rustParseUInt 65536 (hp.drop (pos + 1)) = some p ∧
          P2PAddress.hostEndPort hp = .ok (pos, p)) ∨
        (rustParseUInt 65536 (hp.drop (pos + 1)) = none ∧
          P2PAddress.hostEndPort hp = .error .invalidPortNumber))) ∧
    (∀ hp : List Char, ':' ∈ hp → ∃ pos, lastIdx ':' hp = some pos) ∧
    (∀ hp : List Char,
      (hp.head? == some '[' && hp.getLast? == some ']') = false →
      lastIdx ':' hp = none →
      (∀ c ∈ hp, c ≠ ':') ∧
      P2PAddress.hostEndPort hp = .ok (hp.length, 9735)) := by
  refine ⟨?_, ?_, ?_, ?_, ?_, ?_, ?_⟩
  · intro s h
    simp only [P2PAddress.parse_raw, firstIdx_none '@' s h]
  · intro s i h
    obtain ⟨pre, post, rfl, hlen, hnot⟩ := firstIdx_some '@' s i h
    refine ⟨pre, post, rfl, hlen, hnot, ?_, ?_⟩
    · rw [← hlen]
      exact List.take_left _ _
    · rw [← hlen]
      exact drop_after_sep _ _ _
  · intro s nid ihp port h
    obtain ⟨at_pos, host_end, hfi, hnid, hhep, -⟩ := parse_raw_ok s nid ihp port h
    exact ⟨at_pos, host_end, hfi, hnid, hhep⟩
  · intro hp h
    exact hostEndPort_br hp h
  · intro hp pos hbr hcol
    refine ⟨?_, ?_⟩
    · obtain ⟨pre, post, rfl, hlen, hnot⟩ := lastIdx_some ':' hp pos hcol
      refine ⟨pre, post, rfl, hlen, hnot, ?_, ?_⟩
      · rw [← hlen]
        exact List.take_left _ _
      · rw [← hlen]
        exact drop_after_sep _ _ _
    rcases hparse : rustParseUInt 65536 (hp.drop (pos + 1)) with _ | p
    · exact .inr ⟨rfl, hostEndPort_col_err hp pos hbr hcol hparse⟩
    · exact .inl ⟨p, rfl, hostEndPort_col_ok hp pos p hbr hcol hparse⟩
  · intro hp hmem
    rcases hcol : lastIdx ':' hp with _ | pos
    · exact absurd rfl (lastIdx_eq_none_imp ':' hp hcol ':' hmem)
    · exact ⟨pos, rfl⟩
  · intro hp hbr hcol
    exact ⟨lastIdx_eq_none_imp ':' hp hcol, hostEndPort_nocol hp hbr hcol⟩

theorem p2p_parse_steps_witness :
    P2PAddress.parse_raw ['x'] = .error .missingAtSymbol :=
  p2p_parse_steps.1 ['x'] (by decide)

/-- **C2.** Value-level round trip: re-parsing the `Display` output of any
successfully parsed address yields an equal value; `Display` always emits
the port (the default 9735 included), so `identity@[::1]` formats as
`identity@[::1]:9735` with the IPv6 host kept in brackets. -/
theorem p2p_round_trip :
    (∀ (s : List Char) (a : P2PAddress),
      P2PAddress.internalParse s = .ok a →
      P2PAddress.internalParse (P2PAddress.display a) = .ok a) ∧
    (∀ nid : NodeId, NodeIdWF nid →
      P2PAddress.display ⟨nid, .ip (.v6 [0, 0, 0, 0, 0, 0, 0, 1]), 9735⟩ =
        nodeIdDisplay nid ++ '@' :: '[' :: ':' :: ':' :: '1' :: ']' ::
          ':' :: '9' :: '7' :: '3' :: '5' :: [] ∧
      P2PAddress.internalParse
        (nodeIdDisplay nid ++ '@' :: '[' :: ':' :: ':' :: '1' :: ']' :: []) =
        .ok ⟨nid, .ip (.v6 [0, 0, 0, 0, 0, 0, 0, 1]), 9735⟩) := by
  constructor
  · intro s a h
    exact internalParse_display a (internalParse_wf s a h)
  · intro nid hwf
    obtain ⟨h1, h2⟩ := hwf
    constructor
    · show nodeIdDisplay nid ++ '@' ::
        hostPortDisplay (.ip (.v6 [0, 0, 0, 0, 0, 0, 0, 1])) 9735 = _
      rw [show hostPortDisplay (.ip (.v6 [0, 0, 0, 0, 0, 0, 0, 1])) 9735 =
        '[' :: ':' :: ':' :: '1' :: ']' :: ':' :: '9' :: '7' :: '3' :: '5' :: []
        from rfl]
    · have hcont : P2PAddress.parse_raw
          (nodeIdDisplay nid ++ '@' :: '[' :: ':' :: ':' :: '1' :: ']' :: []) =
          .ok (nid, .ip (.v6 [0, 0, 0, 0, 0, 0, 0, 1]), 9735) := by
        rw [parse_raw_display_steps nid h1 h2 ('[' :: ':' :: ':' :: '1' :: ']' :: [])]
        have e1 : P2PAddress.hostEndPort ['[', ':', ':', '1', ']'] =
            .ok (5, 9735) := rfl
        have e2 : ipv4Full (List.take 5 ['[', ':', ':', '1', ']']) = none := rfl
        have e3 : ((List.take 5 ['[', ':', ':', '1', ']']).head? == some '[' &&
            (List.take 5 ['[', ':', ':', '1', ']']).getLast? == some ']') = true := rfl
        have e4 : ipv6Full (List.take
            ((List.take 5 ['[', ':', ':', '1', ']']).length - 1 - 1)
            (List.drop 1 ['[', ':', ':', '1', ']'])) =
            some [0, 0, 0, 0, 0, 0, 0, 1] := rfl
        simp only [e1, e2, e3, if_true, e4]
      simp only [P2PAddress.internalParse, hcont]

theorem p2p_round_trip_witness :
    ∃ a : P2PAddress,
      P2PAddress.internalParse
        ("022345678901234567890123456789012345678901234567890123456789abcdef@127.0.0.1:1234".toList) = .ok a ∧
      P2PAddress.internalParse (P2PAddress.display a) = .ok a :=
  ⟨⟨⟨("022345678901234567890123456789012345678901234567890123456789abcdef".toList).map
      (fun c => (toDigit 16 c).getD 0)⟩, .ip (.v4 (127, 0, 0, 1)), 1234⟩,
    rfl,
    p2p_round_trip.1
      ("022345678901234567890123456789012345678901234567890123456789abcdef@127.0.0.1:1234".toList)
      ⟨⟨("022345678901234567890123456789012345678901234567890123456789abcdef".toList).map
        (fun c => (toDigit 16 c).getD 0)⟩, .ip (.v4 (127, 0, 0, 1)), 1234⟩ rfl⟩

/-- **C10.** A bracketed host whose bracket-stripped interior is not a valid
IPv6 literal (the bracketed text itself not being a valid IPv4 literal)
makes parsing fail with `InvalidIpv6`; a bracketed host is never classified
as a hostname. -/
theorem p2p_bracketed_host :
    (∀ (s : List Char) (at_pos : Nat) (nid : NodeId) (host_end port : Nat),
      firstIdx '@' s = some at_pos →
      nodeIdParse (s.take at_pos) = some nid →
      P2PAddress.hostEndPort (s.drop (at_pos + 1)) = .ok (host_end, port) →
      ((s.drop (at_pos + 1)).take host_end).head? = some '[' →
      ((s.drop (at_pos + 1)).take host_end).getLast? = some ']' →
      ipv4Full ((s.drop (at_pos + 1)).take host_end) = none →
      ipv6Full (((s.drop (at_pos + 1)).drop 1).take
        (((s.drop (at_pos + 1)).take host_end).length - 1 - 1)) = none →
      P2PAddress.parse_raw s = .error .invalidIpv6) ∧
    (∀ (s : List Char) (nid : NodeId) (b e port : Nat),
      P2PAddress.parse_raw s = .ok (nid, .hostname b e, port) →
      ¬(((s.drop b).take (e - b)).head? = some '[' ∧
        ((s.drop b).take (e - b)).getLast? = some ']')) := by
  constructor
  · intro s at_pos nid host_end port hfi hnid hhep hh hl hv4 hv6
    have hcond : (((s.drop (at_pos + 1)).take host_end).head? == some '[' &&
        ((s.drop (at_pos + 1)).take host_end).getLast? == some ']') = true := by
      rw [hh, hl]
      rfl
    simp only [P2PAddress.parse_raw, hfi, hnid, hhep, hv4, hcond, if_true, hv6]
  · rintro s nid b e port h ⟨hh, hl⟩
    obtain ⟨at_pos, host_end, hfi, hnid, hhep, hm⟩ :=
      parse_raw_ok s nid (.hostname b e) port h
    obtain ⟨rfl, rfl, hv4, hbr⟩ := hm
    rw [show at_pos + 1 + host_end - (at_pos + 1) = host_end by omega] at hh hl
    rw [hh, hl] at hbr
    exact absurd hbr (by decide)

theorem p2p_bracketed_host_witness :
    P2PAddress.parse_raw
      ("022345678901234567890123456789012345678901234567890123456789abcdef@[abc]".toList) =
      .error .invalidIpv6 :=
  p2p_bracketed_host.1 _ 66 ⟨("022345678901234567890123456789012345678901234567890123456789abcdef".toList).map
      (fun c => (toDigit 16 c).getD 0)⟩ 5 9735 rfl rfl rfl rfl rfl rfl rfl

end LnTypes
